import Mathlib

/-!
Verification of the sweep engine and truncated MPS compression of
`tenpy/algorithms/mps_sweeps.py` and `tenpy/algorithms/mps_compress.py`.

Tensors with conserved-charge block structure are embedded shallowly: a tensor
is a curried function `ℕ → ⋯ → ℚ` together with the explicit dimension of each
leg, and every contraction (`npc.tensordot`) is a finite sum over
`Finset.range` of the contracted leg's dimension.  Combined legs
(`combine_legs`) are represented either by the canonical row-major pairing
`(a, b) ↦ a * d + b` or by keeping the two indices curried, as noted at each
definition.  External collaborators of the code under study (the decomposition
routines `npc.qr` / `npc.svd`, the truncation policy `truncate`, and the
environment caches) are part of this repository but not of the files under
study; they are modelled from the specification, as marked in their doc
comments.  Exceptions raised by the Python code are embedded as
`Option`/`Except` failures.
-/

namespace Tenpy

/-! ## Sweep schedule (`Sweep.get_sweep_schedule`) -/

/-- The sweep schedule of `Sweep.get_sweep_schedule`.  For `finite`
boundary conditions the positions are `list(range(0, L - 1)) +
list(range(L - 3, 0, -1))` and the update flags are `[[True, False]] * (L - 2)
+ [[False, True]] * (L - 2)`.  For infinite boundary conditions the source
first executes `assert (L >= 2)` (embedded as `none` on failure) and returns
positions `list(range(0, L)) + list(range(L, 0, -1))` with flags
`[[True, True]] * 2 + [[True, False]] * (L - 2) + [[True, True]] * 2 +
[[False, True]] * (L - 2)`.  A Python `range(a, 0, -1)` is
`(List.range' 1 a).reverse`; truncated subtraction on `ℕ` agrees with
Python's empty ranges and empty list repetitions for small `L`. -/
def get_sweep_schedule (L : ℕ) (finite : Bool) :
    Option (List ℕ × List (Bool × Bool)) :=
  if finite then
    some (List.range (L - 1) ++ (List.range' 1 (L - 3)).reverse,
      List.replicate (L - 2) (true, false) ++ List.replicate (L - 2) (false, true))
  else if L < 2 then none
  else
    some (List.range L ++ (List.range' 1 L).reverse,
      List.replicate 2 (true, true) ++ List.replicate (L - 2) (true, false) ++
        (List.replicate 2 (true, true) ++ List.replicate (L - 2) (false, true)))

/-- The list of scheduled active positions (`schedule_i0`), with the failed
assertion of the infinite branch mapped to the empty list. -/
def schedPos (L : ℕ) (finite : Bool) : List ℕ :=
  match get_sweep_schedule L finite with
  | none => []
  | some s => s.1

/-- The list of `(update_LP, update_RP)` flags (`update_LP_RP`), with the
failed assertion of the infinite branch mapped to the empty list. -/
def schedFlags (L : ℕ) (finite : Bool) : List (Bool × Bool) :=
  match get_sweep_schedule L finite with
  | none => []
  | some s => s.2

theorem schedPos_finite (L : ℕ) :
    schedPos L true = List.range (L - 1) ++ (List.range' 1 (L - 3)).reverse := rfl

theorem schedFlags_finite (L : ℕ) :
    schedFlags L true =
      List.replicate (L - 2) (true, false) ++ List.replicate (L - 2) (false, true) := rfl

theorem schedPos_infinite (L : ℕ) (hL : 2 ≤ L) :
    schedPos L false = List.range L ++ (List.range' 1 L).reverse := by
  simp [schedPos, get_sweep_schedule, Nat.not_lt.mpr hL]

theorem schedFlags_infinite (L : ℕ) (hL : 2 ≤ L) :
    schedFlags L false =
      List.replicate 2 (true, true) ++ List.replicate (L - 2) (true, false) ++
        (List.replicate 2 (true, true) ++ List.replicate (L - 2) (false, true)) := by
  simp [schedFlags, get_sweep_schedule, Nat.not_lt.mpr hL]

theorem count_schedPos_finite (L p : ℕ) :
    (schedPos L true).count p =
      (if p < L - 1 then 1 else 0) + (if 1 ≤ p ∧ p < L - 2 then 1 else 0) := by
  rw [schedPos_finite, List.count_append, List.count_reverse]
  have h1 : (List.range (L - 1)).count p = if p < L - 1 then 1 else 0 := by
    by_cases h : p < L - 1
    · simp [List.count_eq_one_of_mem (List.nodup_range _) (List.mem_range.mpr h), h]
    · simp [List.count_eq_zero_of_not_mem (fun hm => h (List.mem_range.mp hm)), h]
  have h2 : (List.range' 1 (L - 3)).count p = if 1 ≤ p ∧ p < L - 2 then 1 else 0 := by
    by_cases h : 1 ≤ p ∧ p < L - 2
    · have hp : p ∈ List.range' 1 (L - 3) := by
        rw [List.mem_range'_1]
        omega
      simp [List.count_eq_one_of_mem (List.nodup_range' ..) hp, h]
    · have hp : p ∉ List.range' 1 (L - 3) := by
        rw [List.mem_range'_1]
        omega
      simp [List.count_eq_zero_of_not_mem hp, h]
  rw [h1, h2]

/-- C3, counterexample.  The claim states that on a finite chain every bond in
`1..L-2` appears exactly twice in the schedule and that bond `0` never
appears.  At `L = 4` the schedule is `[0, 1, 2, 1]`: position `L - 2 = 2`
appears once, and position `0` does appear. -/
theorem finite_schedule_claim_false_at_L4 :
    ¬ ((schedPos 4 true).count 2 = 2 ∧ (schedPos 4 true).count 0 = 0) := by
  decide

/-- C3 (amended).  For a finite chain of length `L ≥ 3` the schedule has
exactly `2 * (L - 2)` positions, positions `1..L-3` each appear exactly twice
(once per sweep direction), positions `0` and `L - 2` each appear exactly
once, no position `≥ L - 1` is ever scheduled, and the first `L - 2` entries
carry flags `(update_LP, update_RP) = (true, false)` while the remaining
`L - 2` entries carry `(false, true)`. -/
theorem finite_schedule_spec (L : ℕ) (hL : 3 ≤ L) :
    (schedPos L true).length = 2 * (L - 2) ∧
    (∀ p, 1 ≤ p → p ≤ L - 3 → (schedPos L true).count p = 2) ∧
    (schedPos L true).count 0 = 1 ∧
    (schedPos L true).count (L - 2) = 1 ∧
    (∀ p, L - 1 ≤ p → (schedPos L true).count p = 0) ∧
    schedFlags L true =
      List.replicate (L - 2) (true, false) ++ List.replicate (L - 2) (false, true) := by
  refine ⟨?_, ?_, ?_, ?_, ?_, schedFlags_finite L⟩
  · rw [schedPos_finite]
    simp only [List.length_append, List.length_range, List.length_reverse, List.length_range']
    omega
  · intro p h1 h2
    rw [count_schedPos_finite]
    have : p < L - 1 := by omega
    have : 1 ≤ p ∧ p < L - 2 := by omega
    simp_all
  · rw [count_schedPos_finite]
    have h0 : 0 < L - 1 := by omega
    simp [h0]
  · rw [count_schedPos_finite]
    have h1 : L - 2 < L - 1 := by omega
    have h2 : ¬ (1 ≤ L - 2 ∧ L - 2 < L - 2) := by omega
    simp [h1, h2]
  · intro p hp
    rw [count_schedPos_finite]
    have h1 : ¬ p < L - 1 := by omega
    have h2 : ¬ (1 ≤ p ∧ p < L - 2) := by omega
    simp [h1, h2]

/-- C3, witness at `L = 5` (schedule `[0, 1, 2, 3, 2, 1]`). -/
theorem finite_schedule_spec_witness :
    (schedPos 5 true).length = 6 ∧ (schedPos 5 true).count 2 = 2 ∧
    (schedPos 5 true).count 0 = 1 ∧ (schedPos 5 true).count 3 = 1 ∧
    (schedPos 5 true).count 4 = 0 ∧
    schedFlags 5 true =
      List.replicate 3 (true, false) ++ List.replicate 3 (false, true) := by
  obtain ⟨h1, h2, h3, h4, h5, h6⟩ := finite_schedule_spec 5 (by norm_num)
  exact ⟨h1, h2 2 (by norm_num) (by norm_num), h3, h4, h5 4 (by norm_num), h6⟩

/-- C4, counterexample.  The claim states that for an infinite chain the
final two schedule entries carry flags `(true, true)`.  At `L = 3` the flag
list is `[(T,T), (T,T), (T,F), (T,T), (T,T), (F,T)]`, whose last entry is
`(false, true)`. -/
theorem infinite_flags_claim_false_at_L3 :
    (schedFlags 3 false).getD 5 (false, false) ≠ (true, true) := by
  decide

/-- C4 (amended).  For an infinite chain of length `L ≥ 2` the scheduled
positions are `[0, …, L-1]` followed by `[L, …, 1]`, and the flags assign
`(true, true)` to the first two entries of the forward half and to the first
two entries of the backward half (entries `L` and `L + 1`), `(true, false)`
to the remaining forward entries, and `(false, true)` to the remaining
backward entries. -/
theorem infinite_schedule_spec (L : ℕ) (hL : 2 ≤ L) :
    (schedPos L false).length = 2 * L ∧
    (∀ k, k < L → (schedPos L false).getD k 0 = k) ∧
    (∀ k, L ≤ k → k < 2 * L → (schedPos L false).getD k 0 = 2 * L - k) ∧
    (schedFlags L false).length = 2 * L ∧
    (∀ k, k < 2 * L → (schedFlags L false).getD k (false, false) =
      if k < 2 then (true, true)
      else if k < L then (true, false)
      else if k < L + 2 then (true, true)
      else (false, true)) := by
  rw [schedPos_infinite L hL, schedFlags_infinite L hL]
  have hlen : (List.range L ++ (List.range' 1 L).reverse).length = 2 * L := by
    simp only [List.length_append, List.length_range, List.length_reverse, List.length_range']
    omega
  refine ⟨hlen, ?_, ?_, ?_, ?_⟩
  · intro k hk
    rw [List.getD_eq_getElem?_getD, List.getElem?_append_left (by simpa using hk)]
    simp [hk]
  · intro k hk1 hk2
    rw [List.getD_eq_getElem?_getD,
      List.getElem?_append_right (by simpa using hk1)]
    simp only [List.length_range]
    have hidx : k - L < ((List.range' 1 L).reverse).length := by
      simp only [List.length_reverse, List.length_range']
      omega
    rw [List.getElem?_eq_getElem hidx]
    simp only [Option.getD_some, List.getElem_reverse, List.length_reverse,
      List.length_range', List.getElem_range']
    omega
  · simp only [List.length_append, List.length_replicate]
    omega
  · intro k hk
    rw [List.getD_eq_getElem?_getD]
    rcases Nat.lt_or_ge k 2 with h2 | h2
    · rw [List.getElem?_append_left
        (by simp only [List.length_append, List.length_replicate]; omega),
        List.getElem?_append_left (by simp only [List.length_replicate]; omega),
        List.getElem?_replicate]
      simp [h2]
    · rcases Nat.lt_or_ge k L with hL1 | hL1
      · rw [List.getElem?_append_left
          (by simp only [List.length_append, List.length_replicate]; omega),
          List.getElem?_append_right (by simp only [List.length_replicate]; omega),
          List.getElem?_replicate]
        simp only [List.length_replicate]
        have ha : k - 2 < L - 2 := by omega
        have hb : ¬ k < 2 := by omega
        simp [ha, hb, hL1]
      · rw [List.getElem?_append_right
          (by simp only [List.length_append, List.length_replicate]; omega)]
        simp only [List.length_append, List.length_replicate]
        rcases Nat.lt_or_ge k (L + 2) with hL2 | hL2
        · rw [List.getElem?_append_left (by simp only [List.length_replicate]; omega),
            List.getElem?_replicate]
          have ha : k - (2 + (L - 2)) < 2 := by omega
          have hb : ¬ k < 2 := by omega
          have hc : ¬ k < L := by omega
          simp [ha, hb, hc, hL2]
        · rw [List.getElem?_append_right (by simp only [List.length_replicate]; omega),
            List.getElem?_replicate]
          simp only [List.length_replicate]
          have ha : k - (2 + (L - 2)) - 2 < L - 2 := by omega
          have hb : ¬ k < 2 := by omega
          have hc : ¬ k < L := by omega
          have hd : ¬ k < L + 2 := by omega
          simp [ha, hb, hc, hd]

/-- C4, witness at `L = 4`: positions `[0,1,2,3,4,3,2,1]`, flags `(T,T)` at
entries 0, 1, 4, 5, `(T,F)` at 2, 3 and `(F,T)` at 6, 7. -/
theorem infinite_schedule_spec_witness :
    (schedPos 4 false).length = 8 ∧ (schedPos 4 false).getD 2 0 = 2 ∧
    (schedPos 4 false).getD 5 0 = 3 ∧
    (schedFlags 4 false).getD 4 (false, false) = (true, true) ∧
    (schedFlags 4 false).getD 7 (false, false) = (false, true) := by
  obtain ⟨h1, h2, h3, _, h5⟩ := infinite_schedule_spec 4 (by norm_num)
  refine ⟨h1, h2 2 (by norm_num), ?_, ?_, ?_⟩
  · rw [h3 5 (by norm_num) (by norm_num)]
  · rw [h5 4 (by norm_num)]
    decide
  · rw [h5 7 (by norm_num)]
    decide

/-! ## Sweep engine (`Sweep.sweep`)

The local-update hooks `prepare_update` / `update_local` / `post_update_local`
of class `Sweep` raise `NotImplementedError` in the file under study and are
implemented by algorithm-specific subclasses living elsewhere in the
repository.  Following §9 of the specification they are modelled as an
injected strategy.  The statistics an `update_local` call produces at one
scheduled step, and the mixer's `update_amplitude`, are the only parts of the
strategy the sweep loop observes here; the environment extension
(`update_LP` / `update_RP`, delegated to the external `MPOEnvironment`) does
not feed back into the returned values. -/

/-- Statistics one local update step contributes.  Modelled from the spec:
`post_update_local` (abstract in the file under study) records each step's
discarded weight in `trunc_err_list` and, when `meas_E_trunc` is requested,
the energy shift in `E_trunc_list`. -/
structure StepStats where
  trunc_err : ℚ
  E_trunc : ℚ
  deriving DecidableEq

/-- Modelled from the spec: the injected local-update strategy (§9) and
the mixer's `update_amplitude` schedule (§4.5, the `Mixer` class is not in
the files under study).  `update_local` receives the running step number,
the active position `i0`, the two cache-update flags and the `optimize`
flag. -/
structure Strategy where
  update_local : ℕ → ℕ → Bool → Bool → Bool → StepStats
  update_amplitude : ℕ → ℕ → Option ℕ

/-- Mutable per-engine state read and written by `Sweep.sweep` step 4:
the sweep counter `self.sweeps`, the `chi_list` schedule, the current
bond-dimension cap `trunc_params['chi_max']`, and the mixer state
(abstracted to its amplitude-schedule datum). -/
structure SweepState where
  sweeps : ℕ
  chi_list : Option (List (ℕ × ℕ))
  chi_max : Option ℕ
  mixer : Option ℕ
  deriving DecidableEq

/-- The Python `dict.get` on the `chi_list` mapping from sweep counts to caps. -/
def dictGet (d : List (ℕ × ℕ)) (k : ℕ) : Option ℕ :=
  (d.find? (fun e => e.1 == k)).map (fun e => e.2)

/-- The statistics recorded over one sweep: one entry per scheduled step,
in schedule order (a failed schedule assertion records nothing). -/
def recordedStats (strat : Strategy) (L : ℕ) (finite : Bool) (optimize : Bool) :
    List StepStats :=
  match get_sweep_schedule L finite with
  | none => []
  | some (sched, flags) =>
      (sched.zip flags).enum.map
        (fun kf => strat.update_local kf.1 kf.2.1 kf.2.2.1 kf.2.2.2 optimize)

/-- The state after the `if optimize:` block of `Sweep.sweep`: increment the
sweep counter, look the new counter up in `chi_list` (if configured) to
re-cap `trunc_params['chi_max']`, and advance the mixer amplitude; with
`optimize = False` the block is skipped. -/
def sweepStateAfter (strat : Strategy) (optimize : Bool) (st : SweepState) :
    SweepState :=
  if optimize then
    let sweeps' := st.sweeps + 1
    { st with
      sweeps := sweeps'
      chi_max :=
        match st.chi_list with
        | none => st.chi_max
        | some d =>
            match dictGet d sweeps' with
            | none => st.chi_max
            | some c => some c
      mixer :=
        match st.mixer with
        | none => none
        | some m => strat.update_amplitude m sweeps' }
  else st

/-- The `np.max` of a list; `none` embeds the `ValueError` NumPy raises on an
empty list. -/
def npMax : List ℚ → Option ℚ
  | [] => none
  | x :: xs => some (xs.foldl max x)

/-- The total variant of `npMax` on nonempty lists (used to state results). -/
def listMaxD : List ℚ → ℚ
  | [] => 0
  | x :: xs => xs.foldl max x

/-- One call of `Sweep.sweep`: reset the statistics lists, obtain the
schedule (whose infinite-branch assertion may fail), run every scheduled
step through the strategy hooks, perform the `if optimize:` bookkeeping and
return `(np.max(trunc_err_list), np.max(E_trunc_list) if meas_E_trunc else
None)` together with the updated engine state.  `none` embeds an exception
(failed assertion, or `np.max` of an empty list). -/
def sweep (strat : Strategy) (L : ℕ) (finite : Bool) (optimize meas : Bool)
    (st : SweepState) : Option ((ℚ × Option ℚ) × SweepState) :=
  match get_sweep_schedule L finite with
  | none => none
  | some _ =>
      let stats := recordedStats strat L finite optimize
      let trunc_err_list := stats.map (fun s => s.trunc_err)
      let E_trunc_list := if meas then stats.map (fun s => s.E_trunc) else []
      let st' := sweepStateAfter strat optimize st
      match npMax trunc_err_list with
      | none => none
      | some mx =>
          if meas then
            match npMax E_trunc_list with
            | none => none
            | some mE => some ((mx, some mE), st')
          else some ((mx, none), st')

theorem foldl_max_mem (x : ℚ) (xs : List ℚ) : xs.foldl max x ∈ x :: xs := by
  induction xs generalizing x with
  | nil => simp
  | cons y ys ih =>
      have h := ih (max x y)
      rw [List.foldl_cons]
      rcases List.mem_cons.mp h with h | h
      · rcases max_choice x y with he | he <;> rw [h, he] <;> simp
      · simp [h]

theorem le_foldl_max (x : ℚ) (xs : List ℚ) :
    ∀ e ∈ x :: xs, e ≤ xs.foldl max x := by
  induction xs generalizing x with
  | nil =>
      intro e he
      simp only [List.mem_singleton] at he
      simp [he]
  | cons y ys ih =>
      intro e he
      rw [List.foldl_cons]
      rcases List.mem_cons.mp he with he | he
      · subst he
        exact le_trans (le_max_left e y) (ih (max e y) (max e y) (by simp))
      · rcases List.mem_cons.mp he with he | he
        · subst he
          exact le_trans (le_max_right x e) (ih (max x e) (max x e) (by simp))
        · exact ih (max x y) e (List.mem_cons.mpr (Or.inr he))

theorem npMax_eq_listMaxD (xs : List ℚ) (h : xs ≠ []) :
    npMax xs = some (listMaxD xs) := by
  cases xs with
  | nil => exact absurd rfl h
  | cons x xs => rfl

theorem listMaxD_mem (xs : List ℚ) (h : xs ≠ []) : listMaxD xs ∈ xs := by
  cases xs with
  | nil => exact absurd rfl h
  | cons x xs => exact foldl_max_mem x xs

theorem le_listMaxD (xs : List ℚ) : ∀ e ∈ xs, e ≤ listMaxD xs := by
  cases xs with
  | nil => simp
  | cons x xs => exact fun e he => le_foldl_max x xs e he

/-- C6.  Whenever at least one truncation statistic is recorded during the
sweep, `Sweep.sweep` returns a pair whose first component is the maximum
recorded truncation error (it is one of the recorded errors and bounds all
of them) and whose second component is the maximum recorded energy shift if
`meas_E_trunc` and `None` otherwise; the maximum truncation error is
returned on both branches, never dropped. -/
theorem sweep_returns_max_trunc_err (strat : Strategy) (L : ℕ)
    (finite optimize meas : Bool) (st : SweepState)
    (h : recordedStats strat L finite optimize ≠ []) :
    sweep strat L finite optimize meas st =
      some ((listMaxD ((recordedStats strat L finite optimize).map
              (fun s => s.trunc_err)),
            if meas then
              some (listMaxD ((recordedStats strat L finite optimize).map
                (fun s => s.E_trunc)))
            else none),
        sweepStateAfter strat optimize st) ∧
    listMaxD ((recordedStats strat L finite optimize).map (fun s => s.trunc_err)) ∈
      (recordedStats strat L finite optimize).map (fun s => s.trunc_err) ∧
    (∀ e ∈ (recordedStats strat L finite optimize).map (fun s => s.trunc_err),
      e ≤ listMaxD ((recordedStats strat L finite optimize).map
        (fun s => s.trunc_err))) ∧
    listMaxD ((recordedStats strat L finite optimize).map (fun s => s.E_trunc)) ∈
      (recordedStats strat L finite optimize).map (fun s => s.E_trunc) ∧
    (∀ e ∈ (recordedStats strat L finite optimize).map (fun s => s.E_trunc),
      e ≤ listMaxD ((recordedStats strat L finite optimize).map
        (fun s => s.E_trunc))) := by
  have hsched : ∃ s, get_sweep_schedule L finite = some s := by
    by_contra hc
    push_neg at hc
    have : get_sweep_schedule L finite = none := by
      cases hg : get_sweep_schedule L finite with
      | none => rfl
      | some s => exact absurd hg (hc s)
    exact h (by simp [recordedStats, this])
  obtain ⟨s, hs⟩ := hsched
  have herr : (recordedStats strat L finite optimize).map (fun s => s.trunc_err) ≠ [] := by
    simpa using h
  have hE : (recordedStats strat L finite optimize).map (fun s => s.E_trunc) ≠ [] := by
    simpa using h
  refine ⟨?_, listMaxD_mem _ herr, le_listMaxD _, listMaxD_mem _ hE, le_listMaxD _⟩
  unfold sweep
  rw [hs]
  cases meas with
  | false => simp [npMax_eq_listMaxD _ herr]
  | true => simp [npMax_eq_listMaxD _ herr, npMax_eq_listMaxD _ hE]

/-- C6, witness: a concrete strategy on the finite `L = 4` schedule
`[0, 1, 2, 1]` with recorded errors `[0, 1, 2, 3]` (the step number) and
energy shifts `[0, 1, 2, 1]` (the active position). -/
theorem sweep_returns_max_trunc_err_witness :
    sweep ⟨fun k i0 _ _ _ => ⟨(k : ℚ), (i0 : ℚ)⟩, fun _ _ => none⟩ 4 true true true
        ⟨0, none, none, none⟩ =
      some ((3, some 2), ⟨1, none, none, none⟩) ∧
    ((2 : ℚ) ≤ 3) := by
  have h := sweep_returns_max_trunc_err
    ⟨fun k i0 _ _ _ => ⟨(k : ℚ), (i0 : ℚ)⟩, fun _ _ => none⟩ 4 true true true
    ⟨0, none, none, none⟩ (by decide)
  refine ⟨?_, ?_⟩
  · have h1 := h.1
    simpa [recordedStats, get_sweep_schedule, sweepStateAfter, listMaxD] using h1
  · exact h.2.2.1 2 (by decide)

/-- C7.  A sweep with `optimize = False` leaves the engine state — the sweep
counter, the configured `chi_max` cap and the mixer — unchanged, whether or
not the sweep completes: the `if optimize:` block (step 4) is skipped, and
steps 1–3 only refresh the environment through the hooks. -/
theorem sweep_no_optimize_frame (strat : Strategy) (L : ℕ)
    (finite meas : Bool) (st : SweepState) :
    (sweep strat L finite false meas st).map (fun r => r.2) =
      (sweep strat L finite false meas st).map (fun _ => st) := by
  unfold sweep
  have hst : sweepStateAfter strat false st = st := rfl
  cases get_sweep_schedule L finite with
  | none => rfl
  | some s =>
      simp only [hst]
      cases npMax ((recordedStats strat L finite false).map (fun s => s.trunc_err)) with
      | none => rfl
      | some mx =>
          cases meas with
          | false => rfl
          | true =>
              cases npMax (if true then (recordedStats strat L finite false).map
                  (fun s => s.E_trunc) else []) with
              | none => rfl
              | some mE => rfl

/-! ## Effective Hamiltonians (`OneSiteH`, `TwoSiteH`)

Environment tensors carry legs `(vR*, wR, vR)` (left parts) and
`(vL, wL, vL*)` (right parts); MPO tensors carry `(wL, wR, p, p*)`; local
wavefunctions carry `(vL, p0, …, vR)`.  Each tensor is a curried
`ℕ → ⋯ → ℚ` in that leg order, and a leg pipe produced by `combine_legs`
is represented by keeping its two member indices curried, in pipe order.
Contracted dimensions are passed explicitly and every `npc.tensordot` is a
`Finset.range` sum over them. -/

/-- Modelled from the spec: the `MPOEnvironment` cache (§4.1; the class
lives in `tenpy/networks/mpo.py`, outside the files under study) as the
effective Hamiltonians consume it: `get_LP i0`, `get_RP i0` and the MPO
tensor `H.get_W i0`, together with the MPO bond dimension `Dw i0` to the
left of site `i0`. -/
structure MPOEnv where
  LP : ℕ → (ℕ → ℕ → ℕ → ℚ)
  RP : ℕ → (ℕ → ℕ → ℕ → ℚ)
  W : ℕ → (ℕ → ℕ → ℕ → ℕ → ℚ)
  Dw : ℕ → ℕ

/-- Method `TwoSiteH.matvec`, `combine = False` path: contract `LP` into `theta`'s
`vL`, then `W1` over `(wL, p0*)`, then `W2` over `(p1*, wL)`, then `RP` over
`(wR, vR)`, and restore the original leg order `vL, p0, p1, vR`.  The
contracted dimensions are `DL` (the `vL` bond), `Dw1 Dw2 Dw3` (MPO bonds
left of site `i0`, between the sites, right of site `i0+1`), `d0 d1`
(physical), `DR` (the `vR` bond). -/
def twoSiteH_matvec_unfused (DL Dw1 d0 Dw2 d1 Dw3 DR : ℕ)
    (LP : ℕ → ℕ → ℕ → ℚ) (W1 W2 : ℕ → ℕ → ℕ → ℕ → ℚ) (RP : ℕ → ℕ → ℕ → ℚ)
    (θ : ℕ → ℕ → ℕ → ℕ → ℚ) : ℕ → ℕ → ℕ → ℕ → ℚ :=
  let th1 : ℕ → ℕ → ℕ → ℕ → ℕ → ℚ := fun i w q0 q1 b =>
    ∑ a in Finset.range DL, LP i w a * θ a q0 q1 b
  let th2 : ℕ → ℕ → ℕ → ℕ → ℕ → ℚ := fun w2 p0 i q1 b =>
    ∑ w1 in Finset.range Dw1, ∑ q0 in Finset.range d0, W1 w1 w2 p0 q0 * th1 i w1 q0 q1 b
  let th3 : ℕ → ℕ → ℕ → ℕ → ℕ → ℚ := fun p0 i b w3 p1 =>
    ∑ w2 in Finset.range Dw2, ∑ q1 in Finset.range d1, th2 w2 p0 i q1 b * W2 w2 w3 p1 q1
  fun i p0 p1 j =>
    ∑ w3 in Finset.range Dw3, ∑ b in Finset.range DR, th3 p0 i b w3 p1 * RP b w3 j

/-- Method `TwoSiteH.combine_Heff`, left part: `LHeff = tensordot(LP, W1,
axes=['wR', 'wL'])` with leg pipes `(vR*.p0)` and `(vR.p0*)`; index order
`(vR*, p0, wR, vR, p0*)` with the pipes curried. -/
def twoSiteH_LHeff (Dw1 : ℕ) (LP : ℕ → ℕ → ℕ → ℚ) (W1 : ℕ → ℕ → ℕ → ℕ → ℚ) :
    ℕ → ℕ → ℕ → ℕ → ℕ → ℚ :=
  fun i p0 w2 a q0 => ∑ w1 in Finset.range Dw1, LP i w1 a * W1 w1 w2 p0 q0

/-- Method `TwoSiteH.combine_Heff`, right part: `RHeff = tensordot(RP, W2,
axes=['wL', 'wR'])` with leg pipes `(p1.vL*)` and `(p1*.vL)`; index order
`(p1, vL*, wL, p1*, vL)` with the pipes curried. -/
def twoSiteH_RHeff (Dw3 : ℕ) (RP : ℕ → ℕ → ℕ → ℚ) (W2 : ℕ → ℕ → ℕ → ℕ → ℚ) :
    ℕ → ℕ → ℕ → ℕ → ℕ → ℚ :=
  fun p1 j w2 q1 b => ∑ w3 in Finset.range Dw3, RP b w3 j * W2 w2 w3 p1 q1

/-- Method `TwoSiteH.matvec`, `combine = True` path: contract `LHeff` with the
combined `theta` over the `(vR.p0*)`/`(vL.p0)` pipes, then `RHeff` over
`wR` and the `(p1.vR)`/`(p1*.vL)` pipes, and rename back. -/
def twoSiteH_matvec_combine (DL Dw1 d0 Dw2 d1 Dw3 DR : ℕ)
    (LP : ℕ → ℕ → ℕ → ℚ) (W1 W2 : ℕ → ℕ → ℕ → ℕ → ℚ) (RP : ℕ → ℕ → ℕ → ℚ)
    (θ : ℕ → ℕ → ℕ → ℕ → ℚ) : ℕ → ℕ → ℕ → ℕ → ℚ :=
  fun i p0 p1 j =>
    ∑ w2 in Finset.range Dw2, ∑ q1 in Finset.range d1, ∑ b in Finset.range DR,
      (∑ a in Finset.range DL, ∑ q0 in Finset.range d0,
        twoSiteH_LHeff Dw1 LP W1 i p0 w2 a q0 * θ a q0 q1 b) *
      twoSiteH_RHeff Dw3 RP W2 p1 j w2 q1 b

/-- The module-level names of `tenpy/algorithms/mps_sweeps.py` (its imports
and the four classes it defines).  Python resolves a free variable through
the local, enclosing, global and builtin scopes; neither `RP` nor `H2` is a
Python builtin. -/
def mps_sweeps_module_globals : List String :=
  ["np", "time", "warnings", "npc", "MPSEnvironment", "MPOEnvironment",
   "NpcLinearOperator", "get_parameter", "unused_parameters",
   "Sweep", "EffectiveH", "OneSiteH", "TwoSiteH"]

/-- The local names bound inside `OneSiteH.combine_Heff` when control
reaches the line `RHeff = npc.tensordot(RP, H2, axes=['wL', 'wR'])`:
the method argument `self` and the previously assigned `LHeff` and
`pipeL`.  There is no enclosing function scope. -/
def oneSiteH_combine_Heff_locals : List String :=
  ["self", "LHeff", "pipeL"]

/-- The left and right fused parts a `combine_Heff` call is supposed to
produce. -/
structure OneSiteHeffParts where
  LHeff : ℕ → ℕ → ℕ → ℕ → ℕ → ℚ
  RHeff : ℕ → ℕ → ℕ → ℕ → ℕ → ℚ

/-- Method `OneSiteH.combine_Heff`.  The left part `LHeff = tensordot(self.LP,
self.W, axes=['wR', 'wL'])` (pipes `(vR*.p)`, `(vR.p*)`) is well defined.
The next line, `RHeff = npc.tensordot(RP, H2, axes=['wL', 'wR'])`, reads
the free names `RP` and `H2`; both lookups fail (they are neither local,
global nor builtin — `self.RP` and a second MPO tensor of the two-site
variant would have been meant), so the call raises `NameError`, embedded as
`none`.  The guarded branch is unreachable and returns a zero `RHeff`. -/
def oneSiteH_combine_Heff (Dw : ℕ) (LP : ℕ → ℕ → ℕ → ℚ)
    (W : ℕ → ℕ → ℕ → ℕ → ℚ) : Option OneSiteHeffParts :=
  let LHeff : ℕ → ℕ → ℕ → ℕ → ℕ → ℚ :=
    fun i p w2 a q => ∑ w1 in Finset.range Dw, LP i w1 a * W w1 w2 p q
  if (oneSiteH_combine_Heff_locals ++ mps_sweeps_module_globals).contains "RP" &&
      (oneSiteH_combine_Heff_locals ++ mps_sweeps_module_globals).contains "H2" then
    some ⟨LHeff, fun _ _ _ _ _ => 0⟩
  else none

/-- The attributes `OneSiteH.__init__` stores before the optional
`combine_Heff` call. -/
structure OneSiteH where
  LP : ℕ → ℕ → ℕ → ℚ
  RP : ℕ → ℕ → ℕ → ℚ
  W : ℕ → ℕ → ℕ → ℕ → ℚ
  combine : Bool
  heff : Option OneSiteHeffParts

/-- Method `OneSiteH.__init__`: read `env.get_LP(i0)`, `env.get_RP(i0)` and
`env.H.get_W(i0)`, store the `combine` flag, and on `combine = True` run
`combine_Heff` (which raises, propagating the exception out of the
constructor). -/
def oneSiteH_init (env : MPOEnv) (i0 : ℕ) (combine : Bool) : Option OneSiteH :=
  if combine then
    match oneSiteH_combine_Heff (env.Dw i0) (env.LP i0) (env.W i0) with
    | none => none
    | some parts =>
        some ⟨env.LP i0, env.RP i0, env.W i0, true, some parts⟩
  else some ⟨env.LP i0, env.RP i0, env.W i0, false, none⟩

/-- C1.  The fused and unfused apply paths of `TwoSiteH` agree at every
index for arbitrary tensors and dimensions, but for `OneSiteH` the
`combine = True` construction itself fails for every environment and
position (`combine_Heff` raises `NameError` on its `RHeff` line), so no
fused one-site apply path exists to agree with the unfused one. -/
theorem effH_combine_path_equivalence :
    (∀ DL Dw1 d0 Dw2 d1 Dw3 DR : ℕ, ∀ LP RP : ℕ → ℕ → ℕ → ℚ,
      ∀ W1 W2 : ℕ → ℕ → ℕ → ℕ → ℚ, ∀ θ : ℕ → ℕ → ℕ → ℕ → ℚ, ∀ i p0 p1 j : ℕ,
        twoSiteH_matvec_combine DL Dw1 d0 Dw2 d1 Dw3 DR LP W1 W2 RP θ i p0 p1 j =
        twoSiteH_matvec_unfused DL Dw1 d0 Dw2 d1 Dw3 DR LP W1 W2 RP θ i p0 p1 j) ∧
    (∀ env : MPOEnv, ∀ i0 : ℕ, oneSiteH_init env i0 true = none) := by
  constructor
  · intro DL Dw1 d0 Dw2 d1 Dw3 DR LP RP W1 W2 θ i p0 p1 j
    unfold twoSiteH_matvec_combine twoSiteH_matvec_unfused twoSiteH_LHeff twoSiteH_RHeff
    simp only [Finset.sum_mul, Finset.mul_sum]
    -- LHS order: w2 q1 b w3 a q0 w1 ; RHS order: w3 b w2 q1 w1 q0 a
    conv_lhs => enter [2, w2, 2, q1]; rw [Finset.sum_comm]
    conv_lhs => enter [2, w2]; rw [Finset.sum_comm]
    conv_lhs => rw [Finset.sum_comm]
    conv_lhs => enter [2, w3, 2, w2]; rw [Finset.sum_comm]
    conv_lhs => enter [2, w3]; rw [Finset.sum_comm]
    conv_lhs => enter [2, w3, 2, b, 2, w2, 2, q1]; rw [Finset.sum_comm]
    conv_lhs => enter [2, w3, 2, b, 2, w2, 2, q1, 2, q0]; rw [Finset.sum_comm]
    conv_lhs => enter [2, w3, 2, b, 2, w2, 2, q1]; rw [Finset.sum_comm]
    refine Finset.sum_congr rfl fun w3 _ => Finset.sum_congr rfl fun b _ =>
      Finset.sum_congr rfl fun w2 _ => Finset.sum_congr rfl fun q1 _ =>
      Finset.sum_congr rfl fun w1 _ => Finset.sum_congr rfl fun q0 _ =>
      Finset.sum_congr rfl fun a _ => ?_
    ring
  · intro env i0
    rfl

/-- C2.  `OneSiteH.combine_Heff` never produces the right fused part the
specification requires (`tensordot` of `self.RP` — the right cache bordering
the single active site — with `self.W` — the same site's operator tensor):
the lookups of the free names `RP` and `H2` fail for every input, so the
call raises `NameError` instead of building any `RHeff`. -/
theorem oneSiteH_combine_Heff_no_RHeff :
    ∀ (Dw : ℕ) (LP : ℕ → ℕ → ℕ → ℚ) (W : ℕ → ℕ → ℕ → ℕ → ℚ),
      oneSiteH_combine_Heff Dw LP W = none := by
  intro Dw LP W
  rfl

/-! ## Truncated compression (`mps_compress`, `apply_mpo`)

A ChainState site tensor has legs `(vL, p, vR)`; it is embedded as a curried
function together with the three leg dimensions.  `combine_legs(['vL', 'p'])`
is the row-major pairing `(l, p) ↦ l * d + p` and `combine_legs(['p', 'vR'])`
is `(p, b) ↦ p * dR + b`.  The external decompositions `npc.qr` / `npc.svd`
are passed in as functions on matrices together with their defining
factorization contracts. -/

/-- A matrix, as an unbounded curried function; the dimensions in play are
always passed alongside and all sums range over them. -/
def Mat : Type := ℕ → ℕ → ℚ

/-- One ChainState site tensor with legs `(vL, p, vR)` of dimensions
`(dL, d, dR)`; entries outside those bounds are junk and never summed
over. -/
structure SiteT where
  dL : ℕ
  d : ℕ
  dR : ℕ
  A : ℕ → ℕ → ℕ → ℚ

/-- Boundary condition of a ChainState / ChainOperator. -/
inductive BC
  | finite
  | infinite
  deriving DecidableEq

/-- The orthogonality-form tag stored with each site tensor: `None`
(unknown) or `'B'` (right-orthogonal), the only two tags these two files
store. -/
inductive FormTag
  | noform
  | formB
  deriving DecidableEq

/-- The Python exceptions these code paths can raise.
`typeErrorNotImplemented` embeds `raise NotImplemented` in `mps_compress`
(in Python 3 this raises `TypeError: exceptions must derive from
BaseException`, since `NotImplemented` is not an exception — either way an
error propagates before any mutation).  `indexError` embeds
`psi.get_B(0)` on an empty chain. -/
inductive PyErr
  | typeErrorNotImplemented
  | indexError
  | valueErrorBC
  | valueErrorLength
  deriving DecidableEq

/-- A ChainState: boundary condition, site tensors, singular-value vectors
(one per bond, `L + 1` entries with trivial boundary entries), and the
per-site form tags. -/
structure MPS where
  bc : BC
  tensors : List SiteT
  SL : List (List ℚ)
  forms : List FormTag

/-- Fusion `B.combine_legs(['vL', 'p'])`: the fused `(vL.p)` row index against the
`vR` column index. -/
def fuseLP (t : SiteT) : Mat := fun m c => t.A (m / t.d) (m % t.d) c

/-- Fusion `B.combine_legs(['p', 'vR'])`: the `vL` row index against the fused
`(p.vR)` column index. -/
def fusePR (t : SiteT) : Mat := fun l m => t.A l (m / t.dR) (m % t.dR)

/-- Modelled from the spec: `decompose_qr` (§6), the external tensor-algebra
collaborator behind `npc.qr`.  Given the row and column counts and the
matrix it returns the inner dimension `k` and the factors `q`, `r`.  Its
defining property is `QRContract`. -/
def QRFun : Type := ℕ → ℕ → Mat → ℕ × Mat × Mat

/-- The factorization contract of `decompose_qr`: `M = q * r` entrywise on
the declared index ranges. -/
def QRContract (qrF : QRFun) : Prop :=
  ∀ rows cols M, ∀ i < rows, ∀ j < cols,
    M i j = ∑ t in Finset.range (qrF rows cols M).1,
      (qrF rows cols M).2.1 i t * (qrF rows cols M).2.2 t j

/-- Modelled from the spec: `decompose_svd` (§6), the external
tensor-algebra collaborator behind `npc.svd`, returning the inner dimension
`k`, the factor `u`, the weight vector `s` and the factor `vh`. -/
def SVDFun : Type := ℕ → ℕ → Mat → ℕ × Mat × (ℕ → ℚ) × Mat

/-- The factorization contract of `decompose_svd`: `M = u * diag s * vh`
entrywise on the declared index ranges. -/
def SVDContract (svdF : SVDFun) : Prop :=
  ∀ rows cols M, ∀ i < rows, ∀ j < cols,
    M i j = ∑ t in Finset.range (svdF rows cols M).1,
      (svdF rows cols M).2.1 i t *
        ((svdF rows cols M).2.2.1 t * (svdF rows cols M).2.2.2 t j)

/-- The truncation parameters recognized by the truncation policy:
a cap on the kept count, a minimum weight, and a discarded-weight budget. -/
structure TruncCfg where
  chi_max : Option ℕ
  svd_min : ℚ
  trunc_cut : ℚ
  deriving DecidableEq

/-- An unrestricted truncation budget: no cap on the kept states and zero
discard tolerance. -/
def unrestricted (cfg : TruncCfg) : Prop :=
  cfg.chi_max = none ∧ cfg.svd_min = 0 ∧ cfg.trunc_cut = 0

instance (cfg : TruncCfg) : Decidable (unrestricted cfg) :=
  inferInstanceAs
    (Decidable (cfg.chi_max = none ∧ cfg.svd_min = 0 ∧ cfg.trunc_cut = 0))

/-- Modelled from the spec: the external truncation policy `truncate`
(§6, §3 `TruncationResult`; `tenpy/algorithms/truncation.py` is not among
the files under study), returning a keep-mask over the weight vector, a
renormalization scalar and the discarded weight.  With an unrestricted
budget every weight is kept, the renormalization factor is `1` and the
discarded weight is `0` (§8).  With a restrictive budget the model keeps
the weights above the minimum-weight threshold and reports the sum of the
squares of the discarded ones; the cap on the kept count and the exact
renormalization scalar (a Euclidean norm, irrational over `ℚ`) are beyond
what the specification pins down and are not exercised by any claim. -/
def truncate (s : ℕ → ℚ) (k : ℕ) (cfg : TruncCfg) : (ℕ → Bool) × ℚ × ℚ :=
  if cfg.chi_max = none ∧ cfg.svd_min = 0 ∧ cfg.trunc_cut = 0 then
    (fun _ => true, 1, 0)
  else
    (fun t => decide (cfg.svd_min ≤ s t), 1,
      ∑ t in Finset.range k, if cfg.svd_min ≤ s t then 0 else s t ^ 2)

/-- Statement `B = npc.tensordot(r, B_next, axes=('vR', 'vL'))` of the QR loop:
absorb the triangular factor (inner dimension `k`) into the next site. -/
def absorbR (k : ℕ) (r : Mat) (t : SiteT) : SiteT :=
  ⟨k, t.d, t.dR, fun l p b => ∑ c in Finset.range t.dL, r l c * t.A c p b⟩

/-- Operation `q.split_legs()` of the QR loop: un-fuse the `(vL.p)` pipe of the
orthogonal factor. -/
def splitQ (dL d k : ℕ) (q : Mat) : SiteT :=
  ⟨dL, d, k, fun l p c => q (l * d + p) c⟩

/-- The left-to-right QR loop of `mps_compress` (`for i in range(psi.L-1)`):
starting from the running tensor `B` at the current site, fuse `(vL.p)`,
factor, store `q` (with `form=None` — later overwritten), and absorb `r`
into the next site.  Returns the stored sites and the final running tensor
at site `L - 1`. -/
def qrPass (qrF : QRFun) : SiteT → List SiteT → List SiteT × SiteT
  | B, [] => ([], B)
  | B, t :: ts =>
      let res := qrF (B.dL * B.d) B.dR (fuseLP B)
      let rest := qrPass qrF (absorbR res.1 res.2.2 t) ts
      (splitQ B.dL B.d res.1 res.2.1 :: rest.1, rest.2)

/-- The output of one iteration of the right-to-left SVD loop of
`mps_compress`: the projected `vh` stored at the current site (with
`form='B'`), the updated running tensor at the site to the left, the
renormalized kept singular values stored at the bond, and the discarded
weight `truncate` reported. -/
structure SvdStepRes where
  site : SiteT
  Bprev : SiteT
  S : List ℚ
  err : ℚ

/-- The site-local data movement of one SVD-loop iteration, given the
factors `(k, u, s, vh)` returned by `npc.svd` on the fused running tensor
and the `(mask, norm_new, err)` triple returned by `truncate`: project `vh`
on `'vL'` and `u` on `'vR'` by the mask (materialized as the list of kept
indices), renormalize the kept weights, store the split `vh`, and absorb
`u` scaled by the weights into the site `q` to the left
(`B = tensordot(psi.get_B(i-1), u); B.iscale_axis(s, 'vR')`). -/
def svdStepOf (q B : SiteT) (k : ℕ) (u : Mat) (s : ℕ → ℚ) (vh : Mat)
    (tr : (ℕ → Bool) × ℚ × ℚ) : SvdStepRes :=
  let keep := (List.range k).filter (fun t => tr.1 t)
  let kk := keep.length
  let sNew : List ℚ := keep.map (fun t => s t / tr.2.1)
  let vhS : SiteT := ⟨kk, B.d, B.dR, fun l p b => vh (keep.getD l 0) (p * B.dR + b)⟩
  let Bprev : SiteT := ⟨q.dL, q.d, kk, fun l p c =>
    (∑ b in Finset.range q.dR, q.A l p b * u b (keep.getD c 0)) * sNew.getD c 0⟩
  ⟨vhS, Bprev, sNew, tr.2.2⟩

/-- One iteration of the SVD loop: fuse `(p.vR)` of the running tensor `B`,
factor with `npc.svd`, obtain `(mask, norm_new, err)` from `truncate`, and
rearrange via `svdStepOf`. -/
def svdStep (svdF : SVDFun) (cfg : TruncCfg) (q B : SiteT) : SvdStepRes :=
  svdStepOf q B (svdF B.dL (B.d * B.dR) (fusePR B)).1
    (svdF B.dL (B.d * B.dR) (fusePR B)).2.1
    (svdF B.dL (B.d * B.dR) (fusePR B)).2.2.1
    (svdF B.dL (B.d * B.dR) (fusePR B)).2.2.2
    (truncate (svdF B.dL (B.d * B.dR) (fusePR B)).2.2.1
      (svdF B.dL (B.d * B.dR) (fusePR B)).1 cfg)

/-- The accumulated output of the SVD loop: the final running tensor (which
becomes the new site-0 tensor), the new sites `1..L-1` in ascending order,
the singular-value vectors at bonds `1..L-1`, and the reported discarded
weights in the same order. -/
structure SvdPassRes where
  B0 : SiteT
  sites : List SiteT
  Ss : List (List ℚ)
  errs : List ℚ

/-- The right-to-left SVD loop of `mps_compress`
(`for i in range(psi.L-1, 0, -1)`), processed against the stored QR factors
in reverse order (`qs` lists the `q` of sites `L-2, …, 0`). -/
def svdPass (svdF : SVDFun) (cfg : TruncCfg) : List SiteT → SiteT → SvdPassRes
  | [], B => ⟨B, [], [], []⟩
  | q :: qs, B =>
      let st := svdStep svdF cfg q B
      let rest := svdPass svdF cfg qs st.Bprev
      ⟨rest.B0, rest.sites ++ [st.site], rest.Ss ++ [st.S], rest.errs ++ [st.err]⟩

/-- Function `mps_compress(psi, trunc_par)`.  Rejects a non-finite boundary condition
(`raise NotImplemented`) before touching the state; an empty chain would
fail at `psi.get_B(0)`.  Otherwise: the QR pass over sites `0..L-2`
(each stored with `form=None`), the truncated-SVD pass over sites
`L-1..1` (each stored with `form='B'`, its bond weights via `set_SL`),
and finally `psi.set_B(0, B, form='B')` stores the absorbed running tensor
at site 0 with tag `'B'` without any further decomposition — so every
site's final tag is `'B'`, the `form=None` tags of the QR pass all being
overwritten.  Returns the compressed state together with the discarded
weights `truncate` reported (the Python code computes `err` at every bond
and discards the variable; the embedding surfaces the list). -/
def mps_compress (qrF : QRFun) (svdF : SVDFun) (psi : MPS) (cfg : TruncCfg) :
    Except PyErr (MPS × List ℚ) :=
  if psi.bc ≠ BC.finite then .error .typeErrorNotImplemented
  else
    match psi.tensors with
    | [] => .error .indexError
    | t0 :: rest =>
        let qp := qrPass qrF t0 rest
        let sp := svdPass svdF cfg qp.1.reverse qp.2
        .ok ({ bc := psi.bc,
               tensors := sp.B0 :: sp.sites,
               SL := psi.SL.headD [] :: (sp.Ss ++ [psi.SL.getLastD []]),
               forms := FormTag.formB :: sp.sites.map (fun _ => FormTag.formB) },
             sp.errs)

/-- One ChainOperator site tensor with legs `(wL, wR, p, p*)` of dimensions
`(DwL, DwR, d, d)`. -/
structure WT where
  DwL : ℕ
  DwR : ℕ
  d : ℕ
  A : ℕ → ℕ → ℕ → ℕ → ℚ

/-- A ChainOperator: boundary condition, site tensors, and the designated
identity channels `IdL`/`IdR` per bond. -/
structure MPO where
  bc : BC
  Ws : List WT
  IdL : ℕ → ℕ
  IdR : ℕ → ℕ

/-- Function `apply_mpo(psi, mpo, trunc_par)`.  The two guards run first: a
non-finite boundary condition on either operand raises `ValueError`
("Only implemented for finite bc so far"), then a length mismatch raises
`ValueError` ("Length of MPS and MPO not the same") — both before any
tensor computation, leaving the input untouched.  The body contracts each
site tensor with its operator tensor over `('p', 'p*')`, slices the `IdL`
channel out of `wL` at site 0 and the `IdR` channel out of `wR` at site
`L-1`, fuses `(wL.vL)`/`(wR.vR)` pipes elsewhere, installs placeholder
singular values of `1`, and compresses the fused network. -/
def apply_mpo (qrF : QRFun) (svdF : SVDFun) (psi : MPS) (mpo : MPO)
    (cfg : TruncCfg) : Except PyErr MPS :=
  if psi.bc ≠ BC.finite ∨ mpo.bc ≠ BC.finite then .error .valueErrorBC
  else if psi.tensors.length ≠ mpo.Ws.length then .error .valueErrorLength
  else
    let L := psi.tensors.length
    let Bs := (psi.tensors.zip mpo.Ws).mapIdx (fun i tw =>
      let t := tw.1
      let w := tw.2
      let C : ℕ → ℕ → ℕ → ℕ → ℕ → ℚ := fun l b wl wr p =>
        ∑ pp in Finset.range t.d, t.A l pp b * w.A wl wr p pp
      if i = 0 then
        ⟨t.dL, w.d, w.DwR * t.dR, fun l p m => C l (m % t.dR) (mpo.IdL 0) (m / t.dR) p⟩
      else if i = L - 1 then
        ⟨w.DwL * t.dL, w.d, t.dR, fun m p b => C (m % t.dL) b (m / t.dL) (mpo.IdR (L - 1)) p⟩
      else
        ⟨w.DwL * t.dL, w.d, w.DwR * t.dR,
          fun m p n => C (m % t.dL) (n % t.dR) (m / t.dL) (n / t.dR) p⟩)
    let S : List (List ℚ) :=
      [(1 : ℚ)] :: ((Bs.take (L - 1)).map (fun b => List.replicate b.dR (1 : ℚ)) ++ [[(1 : ℚ)]])
    match mps_compress qrF svdF ⟨BC.finite, Bs, S, List.replicate L FormTag.noform⟩ cfg with
    | .error e => .error e
    | .ok res => .ok res.1

/-! ### The global state a finite chain represents -/

theorem sum_delta_right (n j : ℕ) (f : ℕ → ℚ) :
    ∑ t in Finset.range n, f t * (if t = j then 1 else 0) =
      if j < n then f j else 0 := by
  simp only [mul_ite, mul_one, mul_zero]
  rw [Finset.sum_ite_eq']
  simp [Finset.mem_range]

theorem sum_delta_left (n j : ℕ) (f : ℕ → ℚ) :
    ∑ t in Finset.range n, (if j = t then 1 else 0) * f t =
      if j < n then f j else 0 := by
  simp only [ite_mul, one_mul, zero_mul]
  rw [Finset.sum_ite_eq]
  simp [Finset.mem_range]

/-- The global contraction of a chain of site tensors over a physical
configuration, with open boundary indices `l` and `r` (a finite ChainState
has one-dimensional boundary legs, contracted at index `0`).  Mismatched
lengths evaluate to `0`. -/
def evalChain : List SiteT → List ℕ → ℕ → ℕ → ℚ
  | [], [], l, r => if l = r then 1 else 0
  | t :: ts, p :: ps, l, r =>
      ∑ b in Finset.range t.dR, t.A l p b * evalChain ts ps b r
  | _, _, _, _ => 0

/-- A physical configuration is valid for a chain when it has one index per
site, each within that site's physical dimension. -/
def validConf : List SiteT → List ℕ → Bool
  | [], [] => true
  | t :: ts, p :: ps => decide (p < t.d) && validConf ts ps
  | _, _ => false

/-- The bond-compatibility invariant of a ChainState: each site's `vR`
dimension matches the next site's `vL` dimension. -/
def linked (ts : List SiteT) : Prop := List.Chain' (fun a b => a.dR = b.dL) ts

instance (ts : List SiteT) : Decidable (linked ts) :=
  inferInstanceAs (Decidable (List.Chain' (fun (a b : SiteT) => a.dR = b.dL) ts))

/-- The `vL` dimension of the first site (`0` for an empty chain). -/
def headDL : List SiteT → ℕ
  | [] => 0
  | t :: _ => t.dL

theorem validConf_length :
    ∀ (ts : List SiteT) (ps : List ℕ), validConf ts ps = true → ps.length = ts.length := by
  intro ts
  induction ts with
  | nil =>
      intro ps h
      cases ps with
      | nil => rfl
      | cons p ps => simp [validConf] at h
  | cons t ts ih =>
      intro ps h
      cases ps with
      | nil => simp [validConf] at h
      | cons p ps =>
          simp only [validConf, Bool.and_eq_true] at h
          simp [ih ps h.2]

theorem validConf_congr :
    ∀ (xs ys : List SiteT) (ps : List ℕ),
      xs.map (fun t => t.d) = ys.map (fun t => t.d) →
      validConf xs ps = validConf ys ps := by
  intro xs
  induction xs with
  | nil =>
      intro ys ps h
      cases ys with
      | nil => rfl
      | cons y ys => simp at h
  | cons x xs ih =>
      intro ys ps h
      cases ys with
      | nil => simp at h
      | cons y ys =>
          simp only [List.map_cons, List.cons.injEq] at h
          cases ps with
          | nil => rfl
          | cons p ps =>
              simp only [validConf, h.1, ih ys ps h.2]

theorem validConf_append :
    ∀ (xs : List SiteT) (ps1 : List ℕ) (ys : List SiteT) (ps2 : List ℕ),
      xs.length = ps1.length →
      validConf (xs ++ ys) (ps1 ++ ps2) = (validConf xs ps1 && validConf ys ps2) := by
  intro xs
  induction xs with
  | nil =>
      intro ps1 ys ps2 hlen
      cases ps1 with
      | nil => simp [validConf]
      | cons p ps1 => simp at hlen
  | cons x xs ih =>
      intro ps1 ys ps2 hlen
      cases ps1 with
      | nil => simp at hlen
      | cons p ps1 =>
          simp only [List.cons_append, validConf, List.append_eq]
          rw [ih ps1 ys ps2 (by simpa using hlen), Bool.and_assoc]

theorem linked_cons (x : SiteT) (ts : List SiteT) :
    linked (x :: ts) ↔ (∀ y ∈ ts.head?, x.dR = y.dL) ∧ linked ts :=
  List.chain'_cons'

theorem linked_cons_headDL {x : SiteT} {ts : List SiteT}
    (h : linked (x :: ts)) (hne : ts ≠ []) : x.dR = headDL ts := by
  cases ts with
  | nil => exact absurd rfl hne
  | cons t ts => exact ((linked_cons x (t :: ts)).mp h).1 t rfl

theorem linked_of_cons {x : SiteT} {ts : List SiteT} (h : linked (x :: ts)) :
    linked ts := ((linked_cons x ts).mp h).2

theorem evalChain_append :
    ∀ (xs : List SiteT) (ps1 : List ℕ) (ys : List SiteT) (ps2 : List ℕ) (l r : ℕ),
      xs.length = ps1.length →
      ys ≠ [] →
      linked (xs ++ ys) →
      l < headDL (xs ++ ys) →
      evalChain (xs ++ ys) (ps1 ++ ps2) l r =
        ∑ m in Finset.range (headDL ys),
          evalChain xs ps1 l m * evalChain ys ps2 m r := by
  intro xs
  induction xs with
  | nil =>
      intro ps1 ys ps2 l r hlen hys hlink hl
      cases ps1 with
      | nil =>
          simp only [List.nil_append, evalChain]
          rw [eq_comm, sum_delta_left, if_pos (by simpa using hl)]
      | cons p ps1 => simp at hlen
  | cons x xs ih =>
      intro ps1 ys ps2 l r hlen hys hlink hl
      cases ps1 with
      | nil => simp at hlen
      | cons p ps1 =>
          have hne : xs ++ ys ≠ [] := by
            intro hc
            exact hys (List.append_eq_nil.mp hc).2
          have hxdR : x.dR = headDL (xs ++ ys) :=
            linked_cons_headDL hlink hne
          have hlink' : linked (xs ++ ys) := linked_of_cons hlink
          have hih : ∀ b, b < x.dR →
              evalChain (xs ++ ys) (ps1 ++ ps2) b r =
                ∑ m in Finset.range (headDL ys),
                  evalChain xs ps1 b m * evalChain ys ps2 m r :=
            fun b hb =>
              ih ps1 ys ps2 b r (by simpa using hlen) hys hlink' (hxdR ▸ hb)
          simp only [List.cons_append, evalChain]
          calc
            ∑ b in Finset.range x.dR,
                x.A l p b * evalChain (xs ++ ys) (ps1 ++ ps2) b r
              = ∑ b in Finset.range x.dR, ∑ m in Finset.range (headDL ys),
                  x.A l p b * (evalChain xs ps1 b m * evalChain ys ps2 m r) := by
                refine Finset.sum_congr rfl fun b hb => ?_
                rw [hih b (Finset.mem_range.mp hb), Finset.mul_sum]
            _ = ∑ m in Finset.range (headDL ys), ∑ b in Finset.range x.dR,
                  x.A l p b * (evalChain xs ps1 b m * evalChain ys ps2 m r) :=
                Finset.sum_comm
            _ = ∑ m in Finset.range (headDL ys),
                  (∑ b in Finset.range x.dR, x.A l p b * evalChain xs ps1 b m) *
                    evalChain ys ps2 m r := by
                refine Finset.sum_congr rfl fun m _ => ?_
                rw [Finset.sum_mul]
                exact Finset.sum_congr rfl fun b _ => by ring

theorem fuseLP_apply (B : SiteT) (l p c : ℕ) (hp : p < B.d) :
    fuseLP B (l * B.d + p) c = B.A l p c := by
  have hd : 0 < B.d := lt_of_le_of_lt (Nat.zero_le p) hp
  unfold fuseLP
  have h1 : (l * B.d + p) / B.d = l := by
    rw [Nat.mul_comm l B.d, Nat.mul_add_div hd, Nat.div_eq_of_lt hp]
    omega
  have h2 : (l * B.d + p) % B.d = p := by
    rw [Nat.mul_comm l B.d, Nat.mul_add_mod, Nat.mod_eq_of_lt hp]
  rw [h1, h2]

theorem fusePR_apply (B : SiteT) (l p b : ℕ) (hb : b < B.dR) :
    fusePR B l (p * B.dR + b) = B.A l p b := by
  have hd : 0 < B.dR := lt_of_le_of_lt (Nat.zero_le b) hb
  unfold fusePR
  have h1 : (p * B.dR + b) / B.dR = p := by
    rw [Nat.mul_comm p B.dR, Nat.mul_add_div hd, Nat.div_eq_of_lt hb]
    omega
  have h2 : (p * B.dR + b) % B.dR = b := by
    rw [Nat.mul_comm p B.dR, Nat.mul_add_mod, Nat.mod_eq_of_lt hb]
  rw [h1, h2]

theorem fuse_row_lt (l p a d : ℕ) (hl : l < a) (hp : p < d) :
    l * d + p < a * d :=
  calc l * d + p < l * d + d := by omega
  _ = (l + 1) * d := by ring
  _ ≤ a * d := Nat.mul_le_mul_right d hl

theorem head?_dL (ts : List SiteT) (y : SiteT) (h : ts.head? = some y) :
    y.dL = headDL ts := by
  cases ts with
  | nil => simp at h
  | cons t ts =>
      simp only [List.head?_cons, Option.some.injEq] at h
      rw [← h]
      rfl

/-- Dimension bookkeeping of the QR pass: the physical-dimension profile of
the produced chain equals the input's, the first site keeps its `vL`
dimension, bond compatibility is preserved, and one site is stored per
input site consumed. -/
theorem qrPass_dims (qrF : QRFun) :
    ∀ (ts : List SiteT) (B : SiteT),
      ((qrPass qrF B ts).1 ++ [(qrPass qrF B ts).2]).map (fun t => t.d) =
        (B :: ts).map (fun t => t.d) ∧
      headDL ((qrPass qrF B ts).1 ++ [(qrPass qrF B ts).2]) = B.dL ∧
      (linked (B :: ts) → linked ((qrPass qrF B ts).1 ++ [(qrPass qrF B ts).2])) ∧
      (qrPass qrF B ts).1.length = ts.length := by
  intro ts
  induction ts with
  | nil => exact fun B => ⟨rfl, rfl, fun h => h, rfl⟩
  | cons t ts ih =>
      intro B
      obtain ⟨ihd, ihh, ihl, ihlen⟩ :=
        ih (absorbR (qrF (B.dL * B.d) B.dR (fuseLP B)).1
          (qrF (B.dL * B.d) B.dR (fuseLP B)).2.2 t)
      simp only [qrPass]
      refine ⟨?_, rfl, ?_, ?_⟩
      · simpa [splitQ, absorbR] using ihd
      · intro hlink
        have hlink' : linked (absorbR (qrF (B.dL * B.d) B.dR (fuseLP B)).1
            (qrF (B.dL * B.d) B.dR (fuseLP B)).2.2 t :: ts) := by
          have h1 : linked (t :: ts) := linked_of_cons hlink
          exact (linked_cons _ ts).mpr ⟨((linked_cons t ts).mp h1).1,
            ((linked_cons t ts).mp h1).2⟩
        refine (linked_cons _ _).mpr ⟨?_, ihl hlink'⟩
        intro y hy
        rw [head?_dL _ y hy]
        simp only [List.append_eq]
        rw [ihh]
        rfl
      · simpa using ihlen

/-- The QR pass preserves the global contraction: with the factorization
contract of `decompose_qr`, the chain of stored `q` factors followed by the
final running tensor contracts to the same global map as the input chain,
at every valid configuration and in-range boundary index. -/
theorem qrPass_eval (qrF : QRFun) (hqr : QRContract qrF) :
    ∀ (ts : List SiteT) (B : SiteT) (ps : List ℕ) (l r : ℕ),
      linked (B :: ts) →
      validConf (B :: ts) ps = true →
      l < B.dL →
      evalChain ((qrPass qrF B ts).1 ++ [(qrPass qrF B ts).2]) ps l r =
        evalChain (B :: ts) ps l r := by
  intro ts
  induction ts with
  | nil => intro B ps l r _ _ _; rfl
  | cons t ts ih =>
      intro B ps l r hlink hvalid hl
      cases ps with
      | nil => simp [validConf] at hvalid
      | cons p ps' =>
          cases ps' with
          | nil => simp [validConf] at hvalid
          | cons p2 ps'' =>
              simp only [validConf, Bool.and_eq_true, decide_eq_true_eq] at hvalid
              obtain ⟨hp, hp2, hvrest⟩ := hvalid
              set k := (qrF (B.dL * B.d) B.dR (fuseLP B)).1 with hk
              set qM := (qrF (B.dL * B.d) B.dR (fuseLP B)).2.1 with hq
              set rM := (qrF (B.dL * B.d) B.dR (fuseLP B)).2.2 with hr
              have htdL : B.dR = t.dL :=
                (linked_cons_headDL hlink (by simp) : B.dR = headDL (t :: ts))
              have hlinkB' : linked (absorbR k rM t :: ts) := by
                have h1 : linked (t :: ts) := linked_of_cons hlink
                exact (linked_cons _ ts).mpr ⟨((linked_cons t ts).mp h1).1,
                  ((linked_cons t ts).mp h1).2⟩
              have hvalidB' : validConf (absorbR k rM t :: ts) (p2 :: ps'') = true := by
                rw [validConf_congr (absorbR k rM t :: ts) (t :: ts) _ rfl]
                simp [validConf, hp2, hvrest]
              have hcontract : ∀ c, c < B.dR →
                  B.A l p c = ∑ x in Finset.range k, qM (l * B.d + p) x * rM x c := by
                intro c hc
                have := hqr (B.dL * B.d) B.dR (fuseLP B) (l * B.d + p)
                  (fuse_row_lt l p B.dL B.d hl hp) c hc
                rw [← this, fuseLP_apply B l p c hp]
              -- unfold one step of qrPass and evalChain on both sides
              show evalChain (splitQ B.dL B.d k qM ::
                  ((qrPass qrF (absorbR k rM t) ts).1 ++
                    [(qrPass qrF (absorbR k rM t) ts).2])) (p :: p2 :: ps'') l r =
                evalChain (B :: t :: ts) (p :: p2 :: ps'') l r
              have hih : ∀ c, c < k →
                  evalChain ((qrPass qrF (absorbR k rM t) ts).1 ++
                      [(qrPass qrF (absorbR k rM t) ts).2]) (p2 :: ps'') c r =
                    evalChain (absorbR k rM t :: ts) (p2 :: ps'') c r :=
                fun c hc => ih (absorbR k rM t) (p2 :: ps'') c r hlinkB' hvalidB' hc
              simp only [evalChain]
              calc
                ∑ c in Finset.range (splitQ B.dL B.d k qM).dR,
                    (splitQ B.dL B.d k qM).A l p c *
                      evalChain ((qrPass qrF (absorbR k rM t) ts).1 ++
                        [(qrPass qrF (absorbR k rM t) ts).2]) (p2 :: ps'') c r
                  = ∑ c in Finset.range k, qM (l * B.d + p) c *
                      evalChain (absorbR k rM t :: ts) (p2 :: ps'') c r := by
                    refine Finset.sum_congr rfl fun c hc => ?_
                    rw [hih c (Finset.mem_range.mp hc)]
                    rfl
                _ = ∑ c in Finset.range k, qM (l * B.d + p) c *
                      ∑ b in Finset.range t.dR,
                        (∑ cc in Finset.range t.dL, rM c cc * t.A cc p2 b) *
                          evalChain ts ps'' b r := by
                    refine Finset.sum_congr rfl fun c _ => ?_
                    rfl
                _ = ∑ cc in Finset.range t.dL,
                      (∑ c in Finset.range k, qM (l * B.d + p) c * rM c cc) *
                        ∑ b in Finset.range t.dR, t.A cc p2 b * evalChain ts ps'' b r := by
                    simp only [Finset.mul_sum, Finset.sum_mul]
                    conv_lhs => enter [2, c]; rw [Finset.sum_comm]
                    rw [Finset.sum_comm]
                    refine Finset.sum_congr rfl fun cc _ => ?_
                    conv_rhs => rw [Finset.sum_comm]
                    refine Finset.sum_congr rfl fun b _ => ?_
                    refine Finset.sum_congr rfl fun c _ => ?_
                    ring
                _ = ∑ cc in Finset.range B.dR, B.A l p cc *
                      ∑ b in Finset.range t.dR, t.A cc p2 b * evalChain ts ps'' b r := by
                    rw [← htdL]
                    refine Finset.sum_congr rfl fun cc hcc => ?_
                    rw [hcontract cc (Finset.mem_range.mp hcc)]
                _ = ∑ cc in Finset.range B.dR, B.A l p cc *
                      evalChain (t :: ts) (p2 :: ps'') cc r := by
                    refine Finset.sum_congr rfl fun cc _ => ?_
                    rfl

theorem truncate_unrestricted (s : ℕ → ℚ) (k : ℕ) (cfg : TruncCfg)
    (hcfg : unrestricted cfg) : truncate s k cfg = (fun _ => true, 1, 0) := by
  simp only [unrestricted] at hcfg
  unfold truncate
  rw [if_pos hcfg]

/-- One SVD-loop iteration with an unrestricted truncation budget replaces
the adjacent pair `(q, B)` by `(Bprev, site)` without changing the two-site
contraction, for every in-range physical index on the decomposed site and
arbitrary boundary indices. -/
theorem svdStep_pair (svdF : SVDFun) (hsvd : SVDContract svdF) (cfg : TruncCfg)
    (hcfg : unrestricted cfg) (q B : SiteT) (hqB : q.dR = B.dL)
    (p p2 : ℕ) (hp2 : p2 < B.d) (l r : ℕ) :
    evalChain [(svdStep svdF cfg q B).Bprev, (svdStep svdF cfg q B).site]
        [p, p2] l r =
      evalChain [q, B] [p, p2] l r := by
  unfold svdStep
  rw [truncate_unrestricted _ _ _ hcfg]
  unfold svdStepOf
  simp only [evalChain, List.filter_true, List.length_range]
  have hgetD : ∀ c, c < (svdF B.dL (B.d * B.dR) (fusePR B)).1 →
      (List.range (svdF B.dL (B.d * B.dR) (fusePR B)).1).getD c 0 = c := by
    intro c hc
    rw [List.getD_eq_getElem?_getD, List.getElem?_range hc]
    rfl
  have hmapD : ∀ c, c < (svdF B.dL (B.d * B.dR) (fusePR B)).1 →
      ((List.range (svdF B.dL (B.d * B.dR) (fusePR B)).1).map
        (fun t => (svdF B.dL (B.d * B.dR) (fusePR B)).2.2.1 t / 1)).getD c 0 =
        (svdF B.dL (B.d * B.dR) (fusePR B)).2.2.1 c := by
    intro c hc
    rw [List.getD_eq_getElem?_getD, List.getElem?_map, List.getElem?_range hc]
    simp
  calc
    ∑ c in Finset.range (svdF B.dL (B.d * B.dR) (fusePR B)).1,
        ((∑ b in Finset.range q.dR, q.A l p b *
            (svdF B.dL (B.d * B.dR) (fusePR B)).2.1 b
              ((List.range (svdF B.dL (B.d * B.dR) (fusePR B)).1).getD c 0)) *
          ((List.range (svdF B.dL (B.d * B.dR) (fusePR B)).1).map
            (fun t => (svdF B.dL (B.d * B.dR) (fusePR B)).2.2.1 t / 1)).getD c 0) *
        ∑ bb in Finset.range B.dR,
          (svdF B.dL (B.d * B.dR) (fusePR B)).2.2.2
              ((List.range (svdF B.dL (B.d * B.dR) (fusePR B)).1).getD c 0)
              (p2 * B.dR + bb) *
            (if bb = r then 1 else 0)
      = ∑ c in Finset.range (svdF B.dL (B.d * B.dR) (fusePR B)).1,
          ((∑ b in Finset.range q.dR, q.A l p b *
              (svdF B.dL (B.d * B.dR) (fusePR B)).2.1 b c) *
            (svdF B.dL (B.d * B.dR) (fusePR B)).2.2.1 c) *
          (if r < B.dR then
            (svdF B.dL (B.d * B.dR) (fusePR B)).2.2.2 c (p2 * B.dR + r) else 0) := by
        refine Finset.sum_congr rfl fun c hc => ?_
        rw [hgetD c (Finset.mem_range.mp hc), hmapD c (Finset.mem_range.mp hc),
          sum_delta_right B.dR r
            (fun bb => (svdF B.dL (B.d * B.dR) (fusePR B)).2.2.2 c (p2 * B.dR + bb))]
    _ = ∑ c in Finset.range q.dR, q.A l p c *
          (if r < B.dR then B.A c p2 r else 0) := by
        by_cases hr : r < B.dR
        · simp only [if_pos hr]
          have hcontract : ∀ c, c < B.dL →
              B.A c p2 r =
                ∑ t in Finset.range (svdF B.dL (B.d * B.dR) (fusePR B)).1,
                  (svdF B.dL (B.d * B.dR) (fusePR B)).2.1 c t *
                    ((svdF B.dL (B.d * B.dR) (fusePR B)).2.2.1 t *
                      (svdF B.dL (B.d * B.dR) (fusePR B)).2.2.2 t (p2 * B.dR + r)) := by
            intro c hc
            have := hsvd B.dL (B.d * B.dR) (fusePR B) c hc (p2 * B.dR + r)
              (fuse_row_lt p2 r B.d B.dR hp2 hr)
            rw [← this, fusePR_apply B c p2 r hr]
          calc
            ∑ c in Finset.range (svdF B.dL (B.d * B.dR) (fusePR B)).1,
                ((∑ b in Finset.range q.dR, q.A l p b *
                    (svdF B.dL (B.d * B.dR) (fusePR B)).2.1 b c) *
                  (svdF B.dL (B.d * B.dR) (fusePR B)).2.2.1 c) *
                (svdF B.dL (B.d * B.dR) (fusePR B)).2.2.2 c (p2 * B.dR + r)
              = ∑ c in Finset.range (svdF B.dL (B.d * B.dR) (fusePR B)).1,
                  ∑ b in Finset.range q.dR,
                    q.A l p b *
                      ((svdF B.dL (B.d * B.dR) (fusePR B)).2.1 b c *
                        ((svdF B.dL (B.d * B.dR) (fusePR B)).2.2.1 c *
                          (svdF B.dL (B.d * B.dR) (fusePR B)).2.2.2 c (p2 * B.dR + r))) := by
                refine Finset.sum_congr rfl fun c _ => ?_
                rw [Finset.sum_mul, Finset.sum_mul]
                exact Finset.sum_congr rfl fun b _ => by ring
            _ = ∑ b in Finset.range q.dR,
                  q.A l p b *
                    ∑ c in Finset.range (svdF B.dL (B.d * B.dR) (fusePR B)).1,
                      (svdF B.dL (B.d * B.dR) (fusePR B)).2.1 b c *
                        ((svdF B.dL (B.d * B.dR) (fusePR B)).2.2.1 c *
                          (svdF B.dL (B.d * B.dR) (fusePR B)).2.2.2 c (p2 * B.dR + r)) := by
                rw [Finset.sum_comm]
                exact Finset.sum_congr rfl fun b _ => (Finset.mul_sum _ _ _).symm
            _ = ∑ c in Finset.range q.dR, q.A l p c * B.A c p2 r := by
                refine Finset.sum_congr rfl fun b hb => ?_
                rw [hcontract b (hqB ▸ Finset.mem_range.mp hb)]
        · simp [if_neg hr]
    _ = ∑ c in Finset.range q.dR, q.A l p c *
          ∑ b in Finset.range B.dR, B.A c p2 b * (if b = r then 1 else 0) := by
        refine Finset.sum_congr rfl fun c _ => ?_
        rw [sum_delta_right B.dR r (fun b => B.A c p2 b)]

theorem headDL_append (xs ys : List SiteT) (h : xs ≠ []) :
    headDL (xs ++ ys) = headDL xs := by
  cases xs with
  | nil => exact absurd rfl h
  | cons x xs => rfl

theorem linked_append_snoc (xs : List SiteT) (a : SiteT) :
    linked (xs ++ [a]) ↔ linked xs ∧ ∀ x ∈ xs.getLast?, x.dR = a.dL := by
  unfold linked
  rw [List.chain'_append]
  simp

/-- Dimension bookkeeping of the SVD pass: the produced chain keeps the
input chain's first `vL` dimension and final `vR` dimension, bond
compatibility is preserved, and one site is stored per consumed `q`
factor. -/
theorem svdPass_dims (svdF : SVDFun) (cfg : TruncCfg) :
    ∀ (qs : List SiteT) (B : SiteT),
      headDL ((svdPass svdF cfg qs B).B0 :: (svdPass svdF cfg qs B).sites) =
        headDL (qs.reverse ++ [B]) ∧
      (∀ x ∈ ((svdPass svdF cfg qs B).B0 :: (svdPass svdF cfg qs B).sites).getLast?,
        x.dR = B.dR) ∧
      (linked (qs.reverse ++ [B]) →
        linked ((svdPass svdF cfg qs B).B0 :: (svdPass svdF cfg qs B).sites)) ∧
      (svdPass svdF cfg qs B).sites.length = qs.length := by
  intro qs
  induction qs with
  | nil =>
      intro B
      refine ⟨rfl, ?_, fun h => h, rfl⟩
      intro x hx
      simp only [svdPass, List.getLast?_singleton, Option.mem_def,
        Option.some.injEq] at hx
      rw [← hx]
  | cons q qs ih =>
      intro B
      obtain ⟨ihh, ihLast, ihl, ihlen⟩ := ih (svdStep svdF cfg q B).Bprev
      simp only [svdPass, List.reverse_cons]
      refine ⟨?_, ?_, ?_, ?_⟩
      · rw [show ((svdPass svdF cfg qs (svdStep svdF cfg q B).Bprev).B0 ::
            ((svdPass svdF cfg qs (svdStep svdF cfg q B).Bprev).sites ++
              [(svdStep svdF cfg q B).site])) =
            ((svdPass svdF cfg qs (svdStep svdF cfg q B).Bprev).B0 ::
              (svdPass svdF cfg qs (svdStep svdF cfg q B).Bprev).sites) ++
              [(svdStep svdF cfg q B).site] from rfl,
          headDL_append _ _ (by simp), ihh]
        cases qs with
        | nil => rfl
        | cons q2 qs2 =>
            rw [headDL_append ((q2 :: qs2).reverse)
                [(svdStep svdF cfg q B).Bprev] (by simp),
              headDL_append ((q2 :: qs2).reverse ++ [q]) [B] (by simp),
              headDL_append ((q2 :: qs2).reverse) [q] (by simp)]
      · intro x hx
        rw [show ((svdPass svdF cfg qs (svdStep svdF cfg q B).Bprev).B0 ::
            ((svdPass svdF cfg qs (svdStep svdF cfg q B).Bprev).sites ++
              [(svdStep svdF cfg q B).site])) =
            ((svdPass svdF cfg qs (svdStep svdF cfg q B).Bprev).B0 ::
              (svdPass svdF cfg qs (svdStep svdF cfg q B).Bprev).sites) ++
              [(svdStep svdF cfg q B).site] from rfl,
          List.getLast?_concat, Option.mem_def, Option.some.injEq] at hx
        rw [← hx]
        rfl
      · intro hlink
        obtain ⟨hlink1, hjB⟩ := (linked_append_snoc _ B).mp hlink
        obtain ⟨hlink0, hjq⟩ := (linked_append_snoc _ q).mp hlink1
        have hlinkBprev : linked (qs.reverse ++ [(svdStep svdF cfg q B).Bprev]) :=
          (linked_append_snoc _ _).mpr ⟨hlink0, fun x hx => hjq x hx⟩
        have hlinkOut := ihl hlinkBprev
        rw [show ((svdPass svdF cfg qs (svdStep svdF cfg q B).Bprev).B0 ::
            ((svdPass svdF cfg qs (svdStep svdF cfg q B).Bprev).sites ++
              [(svdStep svdF cfg q B).site])) =
            ((svdPass svdF cfg qs (svdStep svdF cfg q B).Bprev).B0 ::
              (svdPass svdF cfg qs (svdStep svdF cfg q B).Bprev).sites) ++
              [(svdStep svdF cfg q B).site] from rfl]
        exact (linked_append_snoc _ _).mpr ⟨hlinkOut, fun x hx => ihLast x hx⟩
      · simp [ihlen]

/-- The SVD pass with an unrestricted truncation budget preserves the
global contraction: the chain `B0 :: sites` it produces contracts to the
same global map as the input chain `qs.reverse ++ [B]`, at every valid
configuration and in-range left boundary index. -/
theorem svdPass_eval (svdF : SVDFun) (hsvd : SVDContract svdF) (cfg : TruncCfg)
    (hcfg : unrestricted cfg) :
    ∀ (qs : List SiteT) (B : SiteT) (ps : List ℕ) (l r : ℕ),
      linked (qs.reverse ++ [B]) →
      validConf (qs.reverse ++ [B]) ps = true →
      l < headDL (qs.reverse ++ [B]) →
      evalChain ((svdPass svdF cfg qs B).B0 :: (svdPass svdF cfg qs B).sites) ps l r =
        evalChain (qs.reverse ++ [B]) ps l r := by
  intro qs
  induction qs with
  | nil => intro B ps l r _ _ _; rfl
  | cons q qs ih =>
      intro B ps l r hlink hvalid hl
      rw [List.reverse_cons] at hlink hvalid hl ⊢
      have hlenps : ps.length = qs.reverse.length + 2 := by
        have h := validConf_length _ _ hvalid
        simp only [List.length_append, List.length_cons, List.length_nil] at h
        omega
      obtain ⟨ps1, ps2, hps, hlen1, hlen2⟩ :
          ∃ ps1 ps2, ps = ps1 ++ ps2 ∧ ps1.length = qs.reverse.length ∧
            ps2.length = 2 :=
        ⟨ps.take qs.reverse.length, ps.drop qs.reverse.length,
          (List.take_append_drop _ _).symm,
          by rw [List.length_take]; omega,
          by rw [List.length_drop]; omega⟩
      obtain ⟨pq, pB, hps2⟩ := List.length_eq_two.mp hlen2
      subst hps2
      subst hps
      obtain ⟨hlink1, hjB⟩ := (linked_append_snoc _ B).mp hlink
      obtain ⟨hlink0, hjq⟩ := (linked_append_snoc _ q).mp hlink1
      have hqB : q.dR = B.dL := hjB q (by rw [List.getLast?_concat]; rfl)
      have hassocQB : qs.reverse ++ [q] ++ [B] = qs.reverse ++ [q, B] := by
        rw [List.append_assoc]
        rfl
      have hassocPair : (qs.reverse ++ [(svdStep svdF cfg q B).Bprev]) ++
          [(svdStep svdF cfg q B).site] =
          qs.reverse ++ [(svdStep svdF cfg q B).Bprev, (svdStep svdF cfg q B).site] := by
        rw [List.append_assoc]
        rfl
      -- validity decomposition
      have hvalid' : validConf (qs.reverse ++ [q, B]) (ps1 ++ [pq, pB]) = true := by
        rw [← hassocQB]
        exact hvalid
      rw [validConf_append _ _ _ _ hlen1.symm] at hvalid'
      simp only [Bool.and_eq_true] at hvalid'
      obtain ⟨hv1, hv2⟩ := hvalid'
      have hpq : pq < q.d := by
        simp only [validConf, Bool.and_eq_true, decide_eq_true_eq] at hv2
        exact hv2.1
      have hpB : pB < B.d := by
        simp only [validConf, Bool.and_eq_true, decide_eq_true_eq] at hv2
        exact hv2.2.1
      -- head-dimension transfer
      have hH : ∀ (ts : List SiteT), headDL ts = q.dL →
          headDL (qs.reverse ++ ts) = headDL (qs.reverse ++ [q] ++ [B]) := by
        intro ts hts
        cases qs.reverse with
        | nil =>
            simp only [List.nil_append]
            rw [hts]
            rfl
        | cons a as =>
            rw [headDL_append (a :: as) ts (by simp),
              headDL_append ((a :: as) ++ [q]) [B] (by simp),
              headDL_append (a :: as) [q] (by simp)]
      -- linked chains
      have hlinkBprev : linked (qs.reverse ++ [(svdStep svdF cfg q B).Bprev]) :=
        (linked_append_snoc _ _).mpr ⟨hlink0, fun x hx => hjq x hx⟩
      have hlinkPair : linked ((qs.reverse ++ [(svdStep svdF cfg q B).Bprev]) ++ [(svdStep svdF cfg q B).site]) :=
        (linked_append_snoc _ _).mpr ⟨hlinkBprev, fun x hx => by
          rw [List.getLast?_concat, Option.mem_def, Option.some.injEq] at hx
          rw [← hx]
          rfl⟩
      obtain ⟨hh, hlast, hlinkimp, hlenS⟩ := svdPass_dims svdF cfg qs (svdStep svdF cfg q B).Bprev
      have hlinkOut : linked ((svdPass svdF cfg qs (svdStep svdF cfg q B).Bprev).B0 ::
          (svdPass svdF cfg qs (svdStep svdF cfg q B).Bprev).sites) := hlinkimp hlinkBprev
      have hlinkOutPair : linked (((svdPass svdF cfg qs (svdStep svdF cfg q B).Bprev).B0 ::
          (svdPass svdF cfg qs (svdStep svdF cfg q B).Bprev).sites) ++ [(svdStep svdF cfg q B).site]) :=
        (linked_append_snoc _ _).mpr ⟨hlinkOut, fun x hx => hlast x hx⟩
      -- validity of the replaced chain
      have hvq : validConf (qs.reverse ++ [q]) (ps1 ++ [pq]) = true := by
        rw [validConf_append _ _ _ _ hlen1.symm]
        simp only [Bool.and_eq_true]
        exact ⟨hv1, by simp [validConf, hpq]⟩
      have hprofB : (qs.reverse ++ [(svdStep svdF cfg q B).Bprev]).map (fun t => t.d) =
          (qs.reverse ++ [q]).map (fun t => t.d) := by
        simp only [List.map_append]
        rfl
      have hvalidBprev : validConf (qs.reverse ++ [(svdStep svdF cfg q B).Bprev]) (ps1 ++ [pq]) = true := by
        rw [validConf_congr _ _ _ hprofB]
        exact hvq
      -- boundary-index bounds
      have hlB : l < headDL (qs.reverse ++ [(svdStep svdF cfg q B).Bprev]) := by
        rw [hH [(svdStep svdF cfg q B).Bprev] rfl]
        exact hl
      -- lengths for the splits
      have hlenOut : ((svdPass svdF cfg qs (svdStep svdF cfg q B).Bprev).B0 ::
          (svdPass svdF cfg qs (svdStep svdF cfg q B).Bprev).sites).length = (ps1 ++ [pq]).length := by
        simp only [List.length_cons, List.length_append, List.length_nil, hlenS]
        rw [hlen1, List.length_reverse]
      have hlenBprev : (qs.reverse ++ [(svdStep svdF cfg q B).Bprev]).length = (ps1 ++ [pq]).length := by
        simp only [List.length_append, List.length_cons, List.length_nil]
        omega
      -- the main chain of equalities
      show evalChain ((svdPass svdF cfg (q :: qs) B).B0 ::
          (svdPass svdF cfg (q :: qs) B).sites) (ps1 ++ [pq, pB]) l r = _
      calc
        evalChain ((svdPass svdF cfg (q :: qs) B).B0 ::
            (svdPass svdF cfg (q :: qs) B).sites) (ps1 ++ [pq, pB]) l r
          = evalChain (((svdPass svdF cfg qs (svdStep svdF cfg q B).Bprev).B0 ::
              (svdPass svdF cfg qs (svdStep svdF cfg q B).Bprev).sites) ++ [(svdStep svdF cfg q B).site])
              ((ps1 ++ [pq]) ++ [pB]) l r := by
            have hplist : ps1 ++ [pq, pB] = (ps1 ++ [pq]) ++ [pB] := by
              rw [List.append_assoc]
              rfl
            rw [hplist]
            rfl
        _ = ∑ m in Finset.range (headDL [(svdStep svdF cfg q B).site]),
              evalChain ((svdPass svdF cfg qs (svdStep svdF cfg q B).Bprev).B0 ::
                (svdPass svdF cfg qs (svdStep svdF cfg q B).Bprev).sites) (ps1 ++ [pq]) l m *
                evalChain [(svdStep svdF cfg q B).site] [pB] m r := by
            refine evalChain_append _ _ _ _ l r hlenOut (by simp) hlinkOutPair ?_
            rw [headDL_append _ _ (by simp), hh, hH [(svdStep svdF cfg q B).Bprev] rfl]
            exact hl
        _ = ∑ m in Finset.range (headDL [(svdStep svdF cfg q B).site]),
              evalChain (qs.reverse ++ [(svdStep svdF cfg q B).Bprev]) (ps1 ++ [pq]) l m *
                evalChain [(svdStep svdF cfg q B).site] [pB] m r := by
            refine Finset.sum_congr rfl fun m _ => ?_
            rw [ih (svdStep svdF cfg q B).Bprev (ps1 ++ [pq]) l m hlinkBprev hvalidBprev hlB]
        _ = evalChain ((qs.reverse ++ [(svdStep svdF cfg q B).Bprev]) ++ [(svdStep svdF cfg q B).site])
              ((ps1 ++ [pq]) ++ [pB]) l r := by
            refine (evalChain_append _ _ _ _ l r hlenBprev (by simp) hlinkPair ?_).symm
            rw [headDL_append _ _ (by simp), hH [(svdStep svdF cfg q B).Bprev] rfl]
            exact hl
        _ = evalChain (qs.reverse ++ [(svdStep svdF cfg q B).Bprev, (svdStep svdF cfg q B).site]) (ps1 ++ [pq, pB]) l r := by
            rw [List.append_assoc, List.append_assoc]
            rfl
        _ = ∑ m in Finset.range (headDL [(svdStep svdF cfg q B).Bprev, (svdStep svdF cfg q B).site]),
              evalChain qs.reverse ps1 l m *
                evalChain [(svdStep svdF cfg q B).Bprev, (svdStep svdF cfg q B).site] [pq, pB] m r := by
            refine evalChain_append _ _ _ _ l r hlen1.symm (by simp) ?_ ?_
            · rw [← hassocPair]
              exact hlinkPair
            · rw [hH [(svdStep svdF cfg q B).Bprev, (svdStep svdF cfg q B).site] rfl]
              exact hl
        _ = ∑ m in Finset.range (headDL [(svdStep svdF cfg q B).Bprev, (svdStep svdF cfg q B).site]),
              evalChain qs.reverse ps1 l m * evalChain [q, B] [pq, pB] m r := by
            refine Finset.sum_congr rfl fun m _ => ?_
            rw [svdStep_pair svdF hsvd cfg hcfg q B hqB pq pB hpB m r]
        _ = evalChain (qs.reverse ++ [q, B]) (ps1 ++ [pq, pB]) l r := by
            refine (evalChain_append _ _ _ _ l r hlen1.symm (by simp) ?_ ?_).symm
            · rw [← hassocQB]
              exact hlink
            · rw [hH [q, B] rfl]
              exact hl
        _ = evalChain ((qs.reverse ++ [q]) ++ [B]) (ps1 ++ [pq, pB]) l r := by
            rw [List.append_assoc]
            rfl

/-- With an unrestricted budget, `truncate` reports zero discarded weight at
every bond of the SVD pass. -/
theorem svdPass_errs (svdF : SVDFun) (cfg : TruncCfg) (hcfg : unrestricted cfg) :
    ∀ (qs : List SiteT) (B : SiteT),
      (svdPass svdF cfg qs B).errs = List.replicate qs.length 0 := by
  intro qs
  induction qs with
  | nil => intro B; rfl
  | cons q qs ih =>
      intro B
      show (svdPass svdF cfg qs (svdStep svdF cfg q B).Bprev).errs ++
          [(svdStep svdF cfg q B).err] = _
      have herr : (svdStep svdF cfg q B).err = 0 := by
        unfold svdStep
        rw [truncate_unrestricted _ _ _ hcfg]
        rfl
      rw [ih, herr, List.length_cons, List.replicate_succ']

/-- C5.  On a finite well-formed chain, `mps_compress` with an unrestricted
truncation budget (no cap on kept states, zero minimum weight, zero discard
tolerance) leaves the global state the chain represents exactly unchanged —
at every valid physical configuration — and reports a discarded weight of
exactly `0` at every internal bond.  The external `decompose_qr` /
`decompose_svd` collaborators enter through their factorization
contracts. -/
theorem mps_compress_unrestricted_exact (qrF : QRFun) (svdF : SVDFun)
    (psi : MPS) (cfg : TruncCfg)
    (hqr : QRContract qrF) (hsvd : SVDContract svdF) (hcfg : unrestricted cfg)
    (hbc : psi.bc = BC.finite) (hlink : linked psi.tensors)
    (hhead : 0 < headDL psi.tensors) (hne : psi.tensors ≠ []) :
    (∀ ps, validConf psi.tensors ps = true →
      (mps_compress qrF svdF psi cfg).map
          (fun res => evalChain res.1.tensors ps 0 0) =
        Except.ok (evalChain psi.tensors ps 0 0)) ∧
    (mps_compress qrF svdF psi cfg).map (fun res => res.2) =
      Except.ok (List.replicate (psi.tensors.length - 1) 0) := by
  obtain ⟨t0, rest, hts⟩ : ∃ t0 rest, psi.tensors = t0 :: rest := by
    cases h : psi.tensors with
    | nil => exact absurd h hne
    | cons a l => exact ⟨a, l, rfl⟩
  have hlink0 : linked (t0 :: rest) := hts ▸ hlink
  have hhead0 : 0 < t0.dL := by
    rw [hts] at hhead
    exact hhead
  obtain ⟨hqd, hqh, hqlinkimp, hqlen⟩ := qrPass_dims qrF rest t0
  have hQlink : linked ((qrPass qrF t0 rest).1 ++ [(qrPass qrF t0 rest).2]) :=
    hqlinkimp hlink0
  have hrev : (qrPass qrF t0 rest).1.reverse.reverse = (qrPass qrF t0 rest).1 :=
    List.reverse_reverse _
  constructor
  · intro ps hvps
    rw [hts] at hvps
    have hvQ : validConf ((qrPass qrF t0 rest).1 ++ [(qrPass qrF t0 rest).2]) ps
        = true := by
      rw [validConf_congr _ _ _ hqd]
      exact hvps
    have hqr_eval := qrPass_eval qrF hqr rest t0 ps 0 0 hlink0 hvps hhead0
    have hsvd_eval := svdPass_eval svdF hsvd cfg hcfg
      (qrPass qrF t0 rest).1.reverse (qrPass qrF t0 rest).2 ps 0 0
      (by rw [hrev]; exact hQlink)
      (by rw [hrev]; exact hvQ)
      (by rw [hrev, hqh]; exact hhead0)
    rw [hrev] at hsvd_eval
    unfold mps_compress
    rw [if_neg (by rw [hbc]; simp), hts]
    show Except.ok (evalChain ((svdPass svdF cfg (qrPass qrF t0 rest).1.reverse
        (qrPass qrF t0 rest).2).B0 :: (svdPass svdF cfg (qrPass qrF t0 rest).1.reverse
        (qrPass qrF t0 rest).2).sites) ps 0 0) =
      Except.ok (evalChain (t0 :: rest) ps 0 0)
    rw [hsvd_eval, hqr_eval]
  · unfold mps_compress
    rw [if_neg (by rw [hbc]; simp), hts]
    show Except.ok (svdPass svdF cfg (qrPass qrF t0 rest).1.reverse
        (qrPass qrF t0 rest).2).errs = _
    rw [svdPass_errs svdF cfg hcfg, List.length_reverse, hqlen]
    rfl

/-- C10.  After `mps_compress` succeeds on a finite chain, every site's form
tag — including site 0, whose tensor is the final absorbed running tensor,
stored by `psi.set_B(0, B, form='B')` with no further orthogonalizing
decomposition — is the right-orthogonal tag `'B'`; the `form=None` tags of
the QR pass are all overwritten. -/
theorem mps_compress_forms_all_B (qrF : QRFun) (svdF : SVDFun)
    (psi : MPS) (cfg : TruncCfg) (hbc : psi.bc = BC.finite)
    (hne : psi.tensors ≠ []) :
    (mps_compress qrF svdF psi cfg).map (fun res => res.1.forms) =
      Except.ok (List.replicate psi.tensors.length FormTag.formB) := by
  obtain ⟨t0, rest, hts⟩ : ∃ t0 rest, psi.tensors = t0 :: rest := by
    cases h : psi.tensors with
    | nil => exact absurd h hne
    | cons a l => exact ⟨a, l, rfl⟩
  have hslen : (svdPass svdF cfg (qrPass qrF t0 rest).1.reverse
      (qrPass qrF t0 rest).2).sites.length = rest.length := by
    obtain ⟨_, _, _, h⟩ := svdPass_dims svdF cfg (qrPass qrF t0 rest).1.reverse
      (qrPass qrF t0 rest).2
    rw [h, List.length_reverse]
    exact (qrPass_dims qrF rest t0).2.2.2
  unfold mps_compress
  rw [if_neg (by rw [hbc]; simp), hts]
  show Except.ok (FormTag.formB :: (svdPass svdF cfg (qrPass qrF t0 rest).1.reverse
      (qrPass qrF t0 rest).2).sites.map (fun _ => FormTag.formB)) = _
  rw [List.length_cons, List.replicate_succ, List.map_const', hslen]

/-- C9.  `mps_compress` rejects every ChainState whose boundary condition
is not `finite` by raising before any state mutation (the embedding is
pure, so the input is untouched by construction; the raise is the first
statement of the function). -/
theorem mps_compress_rejects_nonfinite (qrF : QRFun) (svdF : SVDFun)
    (psi : MPS) (cfg : TruncCfg) (h : psi.bc ≠ BC.finite) :
    mps_compress qrF svdF psi cfg = .error .typeErrorNotImplemented := by
  unfold mps_compress
  rw [if_pos h]

/-- C8.  `apply_mpo` with a non-finite boundary condition on either operand
or mismatched lengths fails at one of its two initial guards, before any
tensor computation; the input state is unchanged (the embedding is pure and
the guards precede the body). -/
theorem apply_mpo_rejects_bad_inputs (qrF : QRFun) (svdF : SVDFun)
    (psi : MPS) (mpo : MPO) (cfg : TruncCfg)
    (h : psi.bc ≠ BC.finite ∨ mpo.bc ≠ BC.finite ∨ psi.tensors.length ≠ mpo.Ws.length) :
    apply_mpo qrF svdF psi mpo cfg = .error .valueErrorBC ∨
      apply_mpo qrF svdF psi mpo cfg = .error .valueErrorLength := by
  unfold apply_mpo
  by_cases hbc : psi.bc ≠ BC.finite ∨ mpo.bc ≠ BC.finite
  · left
    rw [if_pos hbc]
  · right
    rw [if_neg hbc]
    have hlen : psi.tensors.length ≠ mpo.Ws.length := by tauto
    rw [if_pos hlen]

/-- The trivial factorization `M = M * I`, a concrete `decompose_qr`
satisfying its contract, used by witnesses. -/
def qrF0 : QRFun := fun _ cols M => (cols, M, fun i j => if i = j then 1 else 0)

/-- The trivial factorization `M = M * diag 1 * I`, a concrete
`decompose_svd` satisfying its contract, used by witnesses. -/
def svdF0 : SVDFun := fun _ cols M => (cols, M, fun _ => 1, fun i j => if i = j then 1 else 0)

theorem qrF0_contract : QRContract qrF0 := by
  intro rows cols M i _ j hj
  unfold qrF0
  rw [sum_delta_right cols j (fun t => M i t), if_pos hj]

theorem svdF0_contract : SVDContract svdF0 := by
  intro rows cols M i _ j hj
  unfold svdF0
  simp only [one_mul]
  rw [sum_delta_right cols j (fun t => M i t), if_pos hj]

/-- A one-site infinite chain used as the failing input of C8/C9. -/
def psiInf : MPS := ⟨BC.infinite, [⟨1, 1, 1, fun _ _ _ => 1⟩], [[1], [1]], [FormTag.noform]⟩

/-- A one-site finite operator used by the C8 witness. -/
def mpoFin : MPO := ⟨BC.finite, [⟨1, 1, 1, fun _ _ _ _ => 1⟩], fun _ => 0, fun _ => 0⟩

/-- A default unrestricted truncation configuration used by witnesses. -/
def cfg0 : TruncCfg := ⟨none, 0, 0⟩

/-- C9, witness: the infinite one-site chain is rejected. -/
theorem mps_compress_rejects_nonfinite_witness :
    psiInf.bc ≠ BC.finite ∧
      mps_compress qrF0 svdF0 psiInf cfg0 = .error .typeErrorNotImplemented := by
  have h : psiInf.bc ≠ BC.finite := by decide
  exact ⟨h, mps_compress_rejects_nonfinite qrF0 svdF0 psiInf cfg0 h⟩

/-- C8, witness: applying the finite one-site operator to the infinite
one-site chain is rejected at the boundary-condition guard. -/
theorem apply_mpo_rejects_bad_inputs_witness :
    (psiInf.bc ≠ BC.finite ∨ mpoFin.bc ≠ BC.finite ∨
      psiInf.tensors.length ≠ mpoFin.Ws.length) ∧
    (apply_mpo qrF0 svdF0 psiInf mpoFin cfg0 = .error .valueErrorBC ∨
      apply_mpo qrF0 svdF0 psiInf mpoFin cfg0 = .error .valueErrorLength) := by
  have h : psiInf.bc ≠ BC.finite ∨ mpoFin.bc ≠ BC.finite ∨
      psiInf.tensors.length ≠ mpoFin.Ws.length := Or.inl (by decide)
  exact ⟨h, apply_mpo_rejects_bad_inputs qrF0 svdF0 psiInf mpoFin cfg0 h⟩

/-- A two-site finite chain with trivial dimensions, used by the C5 and C10
witnesses. -/
def psiFin2 : MPS :=
  ⟨BC.finite, [⟨1, 1, 1, fun _ _ _ => 1⟩, ⟨1, 1, 1, fun _ _ _ => 1⟩],
    [[1], [1], [1]], [FormTag.noform, FormTag.noform]⟩

/-- C5, witness: the trivial factorizations on the two-site chain with an
unrestricted budget reproduce the global amplitude at the configuration
`[0, 0]` and report the discarded-weight list `[0]`. -/
theorem mps_compress_unrestricted_exact_witness :
    (mps_compress qrF0 svdF0 psiFin2 cfg0).map
        (fun res => evalChain res.1.tensors [0, 0] 0 0) =
      Except.ok (evalChain psiFin2.tensors [0, 0] 0 0) ∧
    (mps_compress qrF0 svdF0 psiFin2 cfg0).map (fun res => res.2) =
      Except.ok [0] := by
  have h := mps_compress_unrestricted_exact qrF0 svdF0 psiFin2 cfg0
    qrF0_contract svdF0_contract (by decide) rfl (List.chain'_pair.mpr rfl)
    (by decide) (List.cons_ne_nil _ _)
  exact ⟨h.1 [0, 0] (by decide), by simpa using h.2⟩

/-- C10, witness: both form tags are `'B'` after compressing the two-site
chain. -/
theorem mps_compress_forms_all_B_witness :
    (mps_compress qrF0 svdF0 psiFin2 cfg0).map (fun res => res.1.forms) =
      Except.ok [FormTag.formB, FormTag.formB] := by
  have h := mps_compress_forms_all_B qrF0 svdF0 psiFin2 cfg0 rfl
    (List.cons_ne_nil _ _)
  simpa using h


end Tenpy
